import Mathlib

/-!
# ProEmailHunter: the extraction engine of `emailhunter.go` and `extractor/extractor.go`

A shallow embedding of the page scanner (`shouldExclude`, `isValidEmail`,
`extractEmailsAndLinks`) and of the merge performed by `processDomain`.

Go strings are byte sequences, so a string is a list of byte values.  The parts
of the Go standard library the program calls are modelled next to the program:
`strings.Contains`, `strings.HasPrefix`, the ASCII path of `strings.ToLower`,
and the fragment of `regexp` that the three patterns of the source use.  What the
library computes from tables or from a parser that is not part of this
repository (Unicode case mapping, `net/url`) is a field of `GoLib`, and
every general theorem quantifies over it.
-/

namespace ProEmailHunter

/-! ## Go strings -/

/-- A Go string: its bytes, in order. -/
abbrev Str := List Nat

/-- The bytes of an ASCII literal. -/
def bytes (s : String) : Str := s.data.map Char.toNat

/-- Go `strings.Contains(s, substr)`: some suffix of `s` starts with `substr`. -/
def strContains : Str → Str → Bool
  | [], sub => sub.isPrefixOf []
  | x :: xs, sub => sub.isPrefixOf (x :: xs) || strContains xs sub

/-- Go `strings.HasPrefix(s, p)`. -/
def strStartsWith (s p : Str) : Bool := p.isPrefixOf s

/-- The test `c < utf8.RuneSelf` of `strings.ToLower` on every byte. -/
def isASCII (s : Str) : Bool := s.all (fun c => decide (c < 128))

/-- The ASCII branch of `strings.ToLower`: `A`..`Z` are shifted by `a - A`. -/
def lowerByte (c : Nat) : Nat := if 65 ≤ c ∧ c ≤ 90 then c + 32 else c

/-- A URL as `net/url` presents it to the program, which reads only `Host`. -/
structure URL where
  Scheme : Str
  Opaque : Str
  Host : Str
  Path : Str
  RawQuery : Str
  Fragment : Str
deriving DecidableEq, Repr

/-- The standard-library behaviour that is computed outside this repository.
`mapToLower` is `strings.Map(unicode.ToLower, s)`, which `strings.ToLower`
calls on a string with a non-ASCII byte; `urlParse` is `url.Parse` (`none` for
an error); `resolveReference` is `(*URL).ResolveReference`; `urlString` is
`(*URL).String`. -/
structure GoLib where
  mapToLower : Str → Str
  urlParse : Str → Option URL
  resolveReference : URL → URL → URL
  urlString : URL → Str

/-- Go `strings.ToLower`: the ASCII fast path, else the Unicode mapping. -/
def strToLower (lib : GoLib) (s : Str) : Str :=
  if isASCII s then s.map lowerByte else lib.mapToLower s

/-! ## The fragment of `regexp` used by the source

The patterns of the source are sequences of single-byte classes, greedy
repetitions of a class, the assertion `\b` and one capture group.  All classes
are ASCII (or the complement of one ASCII byte), so matching bytes and matching
UTF-8 runes select the same substrings. -/

/-- A bracket expression: byte ranges, possibly negated. -/
structure Cls where
  neg : Bool
  ranges : List (Nat × Nat)

/-- Membership of a byte in a bracket expression. -/
def Cls.mem (c : Cls) (x : Nat) : Bool :=
  xor c.neg (c.ranges.any (fun r => decide (r.1 ≤ x) && decide (x ≤ r.2)))

/-- One element of a pattern. -/
inductive Item where
  | one (c : Cls)
  | many (c : Cls)
  | wordB
  | capOpen
  | capClose

/-- The range `lo-hi` of a bracket expression. -/
def rng (lo hi : Char) : Nat × Nat := (lo.toNat, hi.toNat)

/-- A single byte of a bracket expression. -/
def chr (c : Char) : Nat × Nat := (c.toNat, c.toNat)

/-- A literal byte of a pattern. -/
def lit (c : Nat) : Item := Item.one ⟨false, [(c, c)]⟩

/-- The pattern `x+`: one `x`, then greedy `x*`. -/
def plus (c : Cls) : List Item := [Item.one c, Item.many c]

/-- The pattern `x{2,}`: two `x`, then greedy `x*`. -/
def atLeastTwo (c : Cls) : List Item := [Item.one c, Item.one c, Item.many c]

/-- The word bytes of `\b`: `[0-9A-Za-z_]`. -/
def isWordByte (x : Nat) : Bool :=
  (decide (48 ≤ x) && decide (x ≤ 57)) || (decide (65 ≤ x) && decide (x ≤ 90)) ||
  (decide (97 ≤ x) && decide (x ≤ 122)) || x == 95

/-- Whether the byte before or after a position is a word byte (text edges are not). -/
def isWordAt : Option Nat → Bool
  | none => false
  | some x => isWordByte x

/-- Positions reported by a match: the end of the match and the capture group. -/
structure MatchEnd where
  stop : Nat
  capStart : Nat
  capStop : Nat
deriving DecidableEq, Repr

/-- Greedy repetition: take one more byte of the class when that leads to a
match, otherwise go on with the rest of the pattern here. -/
def matchMany (c : Cls) (k : Option Nat → List Nat → Nat → Option MatchEnd) :
    Option Nat → List Nat → Nat → Option MatchEnd
  | prev, [], pos => k prev [] pos
  | prev, x :: xs, pos =>
    if c.mem x then
      match matchMany c k (some x) xs (pos + 1) with
      | some r => some r
      | none => k prev (x :: xs) pos
    else k prev (x :: xs) pos

/-- Match a pattern at the head of `s` with leftmost-first preference; `prev` is
the byte before `s` in the whole text, `pos` the offset of `s` in it. -/
def matchItems : List Item → Nat × Nat → Option Nat → List Nat → Nat → Option MatchEnd
  | [], cap, _, _, pos => some ⟨pos, cap.1, cap.2⟩
  | Item.one c :: r, cap, _, s, pos =>
    match s with
    | [] => none
    | x :: xs => if c.mem x then matchItems r cap (some x) xs (pos + 1) else none
  | Item.many c :: r, cap, prev, s, pos => matchMany c (matchItems r cap) prev s pos
  | Item.wordB :: r, cap, prev, s, pos =>
    if isWordAt prev != isWordAt s.head? then matchItems r cap prev s pos else none
  | Item.capOpen :: r, cap, prev, s, pos => matchItems r (pos, cap.2) prev s pos
  | Item.capClose :: r, cap, prev, s, pos => matchItems r (cap.1, pos) prev s pos

/-- A match as the program sees it: `whole` is `match[0]`, `group` is `match[1]`. -/
structure Match where
  whole : Str
  group : Str
deriving DecidableEq, Repr

/-- The substring `s[i:j]`. -/
def slice (s : Str) (i j : Nat) : Str := (s.drop i).take (j - i)

/-- Go `allMatches`: successive non-overlapping leftmost matches.  `skip` bytes
still belong to the previous match; `fresh` is false right after a match, where
an empty match is not reported.  (After an empty match Go steps over one rune;
no pattern of the source matches the empty string, see `allMatches_ne_nil`.) -/
def allMatches (re : List Item) : Nat → Bool → Option Nat → List Nat → List Match
  | _, fresh, prev, [] =>
    match matchItems re (0, 0) prev [] 0 with
    | some m => if m.stop = 0 ∧ fresh then [⟨[], slice [] m.capStart m.capStop⟩] else []
    | none => []
  | skip + 1, _, _, x :: xs => allMatches re skip false (some x) xs
  | 0, fresh, prev, x :: xs =>
    match matchItems re (0, 0) prev (x :: xs) 0 with
    | some m =>
      if m.stop = 0 then
        (if fresh then [⟨[], slice (x :: xs) m.capStart m.capStop⟩] else []) ++
          allMatches re 0 true (some x) xs
      else
        ⟨(x :: xs).take m.stop, slice (x :: xs) m.capStart m.capStop⟩ ::
          allMatches re (m.stop - 1) false (some x) xs
    | none => allMatches re 0 true (some x) xs

/-- Go `(*Regexp).FindAllString(s, -1)`. -/
def FindAllString (re : List Item) (s : Str) : List Str :=
  (allMatches re 0 true none s).map Match.whole

/-- Go `(*Regexp).FindAllStringSubmatch(s, -1)`. -/
def FindAllStringSubmatch (re : List Item) (s : Str) : List Match :=
  allMatches re 0 true none s

/-! ## Globals of the source (identical in both files) -/

/-- The source: `excludePatterns`. -/
def excludePatterns : List Str :=
  [bytes ".jpg", bytes ".png", bytes ".gif", bytes ".webp", bytes ".ico", bytes ".mp4",
   bytes ".pdf", bytes ".eot", bytes ".doc", bytes ".docx", bytes ".xls", bytes ".xlsx",
   bytes ".woff", bytes ".woff2", bytes ".css", bytes ".json", bytes ".xml", bytes ".rss",
   bytes ".svg", bytes ".yaml", bytes ".yml", bytes ".csv", bytes ".dockerfile",
   bytes ".cfg", bytes ".lock", bytes ".js", bytes ".md", bytes ".toml"]

/-- The class `[A-Za-z0-9._%+-]` of the local part. -/
def localCls : Cls :=
  ⟨false, [rng 'A' 'Z', rng 'a' 'z', rng '0' '9', chr '.', chr '_', chr '%', chr '+', chr '-']⟩

/-- The class `[A-Za-z0-9.-]` of the domain. -/
def domainCls : Cls := ⟨false, [rng 'A' 'Z', rng 'a' 'z', rng '0' '9', chr '.', chr '-']⟩

/-- The class `[A-Z|a-z]` of the top-level domain, as the source writes it. -/
def tldCls : Cls := ⟨false, [rng 'A' 'Z', chr '|', rng 'a' 'z']⟩

/-- The source: `emailRegex`,
`\b[A-Za-z0-9._%+-]+@[A-Za-z0-9.-]+\.[A-Z|a-z]{2,}\b`. -/
def emailRegex : List Item :=
  [Item.wordB] ++ plus localCls ++ [lit 64] ++ plus domainCls ++ [lit 46] ++
    atLeastTwo tldCls ++ [Item.wordB]

/-- The pattern `href=Q([^Q]*)Q` for a quote byte `Q`. -/
def hrefPattern (q : Nat) : List Item :=
  (bytes "href=").map lit ++
    [lit q, Item.capOpen, Item.many ⟨true, [(q, q)]⟩, Item.capClose, lit q]

/-- The source: `hrefPatterns`, the double-quoted pattern then the single-quoted one. -/
def hrefPatterns : List (List Item) := [hrefPattern 34, hrefPattern 39]

/-- The source: `shouldExclude`. -/
def shouldExclude (lib : GoLib) (link : Str) : Bool :=
  let lowerLink := strToLower lib link
  excludePatterns.any (fun pattern => strContains lowerLink pattern)

/-! ## Results and fetch outcomes -/

/-- The source: `ExtractionResult`.  A `map[string]bool` that only ever stores
`true` is the list of its keys, each once; `Error` is `none` for Go `nil`. -/
structure ExtractionResult where
  Emails : List Str
  Links : List Str
  Error : Option Str
  URL : Str
deriving DecidableEq, Repr

/-- The assignment `m[k] = true` on a key list. -/
def setAdd (m : List Str) (k : Str) : List Str := if k ∈ m then m else m ++ [k]

/-- What `client.Get` followed by `io.ReadAll` can deliver: `getError` is a
failed round trip; `response` carries the status code, the bytes `io.ReadAll`
returned, and the error of `io.ReadAll` when reading failed part-way. -/
inductive FetchOutcome where
  | getError (err : Str)
  | response (status : Nat) (body : Str) (readErr : Option Str)
deriving DecidableEq, Repr

/-- The loop `for _, email := range emails` that the source runs after each
`emailRegex.FindAllString`: a matched token that is not empty and passes
`valid` is stored in the email set. -/
def addEmails (valid : Str → Bool) (emails : List Str) (text : Str) : List Str :=
  (FindAllString emailRegex text).foldl
    (fun acc email => if email ≠ [] ∧ valid email = true then setAdd acc email else acc) emails

/-! ## `emailhunter.go` (package `main`) -/

namespace Main

/-- The source: `isValidEmail` of `emailhunter.go`, four guards in sequence. -/
def isValidEmail (lib : GoLib) (email : Str) : Bool :=
  if strContains (strToLower lib email) (bytes "example") then false
  else if strContains (strToLower lib email) (bytes "email") then false
  else if email.length < 5 then false
  else if strContains email (bytes ".png") || strContains email (bytes ".jpg") ||
      strContains email (bytes ".webp") || strContains email (bytes ".gif") then false
  else true

/-- The body of the loop over `matches` in `extractEmailsAndLinks` of
`emailhunter.go`, for the captured `link`; each `continue` returns the result
as it stands. -/
def processLink (lib : GoLib) (targetURL baseURL : Str) (result : ExtractionResult)
    (link : Str) : ExtractionResult :=
  if shouldExclude lib link then result
  else if strStartsWith (strToLower lib link) (bytes "mailto:") then
    let emailPart := link.drop 7
    { result with Emails := addEmails (isValidEmail lib) result.Emails emailPart }
  else
    let result := { result with Emails := addEmails (isValidEmail lib) result.Emails link }
    match lib.urlParse link with
    | none => result
    | some absoluteLink =>
      match lib.urlParse targetURL with
      | none => result
      | some base =>
        let resolvedLink := lib.urlString (lib.resolveReference base absoluteLink)
        match lib.urlParse baseURL with
        | none => result
        | some baseParsed =>
          match lib.urlParse resolvedLink with
          | none => result
          | some resolvedParsed =>
            if resolvedParsed.Host = baseParsed.Host then
              { result with Links := setAdd result.Links resolvedLink }
            else result

/-- The two nested loops over `hrefPatterns` and over the matches of each. -/
def scanLinks (lib : GoLib) (targetURL baseURL : Str) (html : Str)
    (result : ExtractionResult) : ExtractionResult :=
  hrefPatterns.foldl
    (fun result pattern =>
      (FindAllStringSubmatch pattern html).foldl
        (fun result m => processLink lib targetURL baseURL result m.group) result)
    result

/-- The source: `extractEmailsAndLinks` of `emailhunter.go`.  The outcome of the
HTTP round trip is an argument; `timeout` only configures the client and
`verbose` only prints, so neither appears. -/
def extractEmailsAndLinks (lib : GoLib) (targetURL baseURL : Str) (fetch : FetchOutcome) :
    ExtractionResult :=
  let result : ExtractionResult := ⟨[], [], none, targetURL⟩
  match fetch with
  | FetchOutcome.getError err => { result with Error := some err }
  | FetchOutcome.response status body readErr =>
    if status ≠ 200 then result
    else
      match readErr with
      | some err => { result with Error := some err }
      | none =>
        let html := body
        let result := scanLinks lib targetURL baseURL html result
        { result with Emails := addEmails (isValidEmail lib) result.Emails html }

end Main

/-! ## `extractor/extractor.go` (package `extractor`) -/

namespace Extractor

/-- The source: `isValidEmail` of `extractor.go`, two guards. -/
def isValidEmail (lib : GoLib) (email : Str) : Bool :=
  if strContains (strToLower lib email) (bytes "example") ||
      strContains (strToLower lib email) (bytes "email") ||
      decide (email.length < 5) then false
  else if strContains email (bytes ".png") || strContains email (bytes ".jpg") ||
      strContains email (bytes ".webp") || strContains email (bytes ".gif") then false
  else true

/-- The body of the loop over `matches` in `extractEmailsAndLinks` of
`extractor.go`.  Only the error of `url.Parse(link)` is checked; the other three
parses drop their error, and using a `nil` URL is a run-time panic, here `none`.
(A `nil` receiver of `ResolveReference` panics for a reference without scheme;
the model reports every `nil` receiver.  `client.Get` has parsed `targetURL`
before a response exists, so that parse does not fail on a scanned page.) -/
def processLink (lib : GoLib) (targetURL baseURL : Str) (result : ExtractionResult)
    (link : Str) : Option ExtractionResult :=
  if shouldExclude lib link then some result
  else if strStartsWith (strToLower lib link) (bytes "mailto:") then
    let emailPart := link.drop 7
    some { result with Emails := addEmails (isValidEmail lib) result.Emails emailPart }
  else
    let result := { result with Emails := addEmails (isValidEmail lib) result.Emails link }
    match lib.urlParse link with
    | none => some result
    | some absoluteLink =>
      match lib.urlParse targetURL with
      | none => none
      | some base =>
        let resolvedLink := lib.urlString (lib.resolveReference base absoluteLink)
        match lib.urlParse baseURL, lib.urlParse resolvedLink with
        | some baseParsed, some resolvedParsed =>
          if resolvedParsed.Host = baseParsed.Host then
            some { result with Links := setAdd result.Links resolvedLink }
          else some result
        | _, _ => none

/-- The two nested loops over `hrefPatterns` and over the matches of each. -/
def scanLinks (lib : GoLib) (targetURL baseURL : Str) (html : Str)
    (result : ExtractionResult) : Option ExtractionResult :=
  hrefPatterns.foldl
    (fun acc pattern =>
      (FindAllStringSubmatch pattern html).foldl
        (fun acc m => acc.bind (fun result => processLink lib targetURL baseURL result m.group))
        acc)
    (some result)

/-- The source: `extractEmailsAndLinks` of `extractor.go`.  The error of
`io.ReadAll` is dropped and the bytes it returned are scanned. -/
def extractEmailsAndLinks (lib : GoLib) (targetURL baseURL : Str) (fetch : FetchOutcome) :
    Option ExtractionResult :=
  let result : ExtractionResult := ⟨[], [], none, targetURL⟩
  match fetch with
  | FetchOutcome.getError err => some { result with Error := some err }
  | FetchOutcome.response status body _ =>
    if status ≠ 200 then some result
    else
      let html := body
      (scanLinks lib targetURL baseURL html result).map
        (fun result => { result with Emails := addEmails (isValidEmail lib) result.Emails html })

end Extractor

/-! ## The merge of `processDomain` (identical in both files) -/

/-- The source: `allEmails` and `foundEmails` of `processDomain`.  The map
`foundEmails` is the list of its entries, one per key. -/
structure Report where
  allEmails : List Str
  foundEmails : List (Str × List Str)
deriving DecidableEq, Repr

/-- The read `foundEmails[email]`: the `nil` slice for an absent key. -/
def sourcesOf : List (Str × List Str) → Str → List Str
  | [], _ => []
  | (k, v) :: rest, email => if k = email then v else sourcesOf rest email

/-- The write `foundEmails[email] = append(foundEmails[email], url)`. -/
def appendSource : List (Str × List Str) → Str → Str → List (Str × List Str)
  | [], email, url => [(email, [url])]
  | (k, v) :: rest, email, url =>
    if k = email then (k, v ++ [url]) :: rest else (k, v) :: appendSource rest email url

/-- The two statements of the merge loops, for one email of the page `url`. -/
def record (url : Str) (r : Report) (email : Str) : Report :=
  ⟨setAdd r.allEmails email, appendSource r.foundEmails email url⟩

/-- The loop `for email := range result.Emails` of the merge. -/
def mergeEmails (r : Report) (emails : List Str) (url : Str) : Report :=
  emails.foldl (record url) r

/-- The merge of `processDomain`: the seed result is recorded under `domainURL`,
then every frontier result under its own `URL`, in the order of arrival. -/
def collect (domainURL : Str) (mainResult : ExtractionResult)
    (results : List ExtractionResult) : Report :=
  results.foldl (fun r result => mergeEmails r result.Emails result.URL)
    (mergeEmails ⟨[], []⟩ mainResult.Emails domainURL)

namespace Main

/-- The source: `processDomain` of `emailhunter.go` up to the report it prints.
`seedFetch` is the outcome of fetching `domainURL`, `net` the outcome for each
frontier link, and `arrival` the order in which the workers deliver their
results on the channel (a rearrangement of the link set). -/
def processDomain (lib : GoLib) (seedFetch : FetchOutcome) (net : Str → FetchOutcome)
    (domainURL : Str) (arrival : List Str) : Report :=
  let mainResult := extractEmailsAndLinks lib domainURL domainURL seedFetch
  let links := mainResult.Links
  if links.length > 0 then
    collect domainURL mainResult
      (arrival.map (fun l => extractEmailsAndLinks lib l domainURL (net l)))
  else collect domainURL mainResult []

end Main

/-! ## An instance of the library for worked examples

The general theorems hold for every `GoLib`.  Worked examples need values for
`url.Parse`, `ResolveReference` and `String`; this instance follows `net/url` on
ASCII URLs of the form `scheme://host/path?query#fragment` and on references to
them, without user information, escapes or dot segments. -/

/-- Go `strings.Cut(s, sep)` for a one-byte separator: the text before the first
`sep` and the text after it (`none` when `sep` does not occur). -/
def cutAt (sep : Nat) : Str → Str × Option Str
  | [] => ([], none)
  | x :: xs =>
    if x = sep then ([], some xs)
    else let r := cutAt sep xs; (x :: r.1, r.2)

/-- The scan of `getScheme` in `net/url`: `some (scheme, rest)`, with an empty
scheme when the text has none, and `none` for a leading colon. -/
def getScheme (rawURL : Str) : Nat → Str → Option (Str × Str)
  | _, [] => some ([], rawURL)
  | i, c :: cs =>
    if (65 ≤ c ∧ c ≤ 90) ∨ (97 ≤ c ∧ c ≤ 122) then getScheme rawURL (i + 1) cs
    else if (48 ≤ c ∧ c ≤ 57) ∨ c = 43 ∨ c = 45 ∨ c = 46 then
      (if i = 0 then some ([], rawURL) else getScheme rawURL (i + 1) cs)
    else if c = 58 then
      (if i = 0 then none else some (rawURL.take i, cs))
    else some ([], rawURL)

/-- The instance of `url.Parse`. -/
def exampleParse (rawURL : Str) : Option URL :=
  let (u, frag) := cutAt 35 rawURL
  if u.any (fun c => decide (c < 32) || c == 127) then none
  else
    match getScheme u 0 u with
    | none => none
    | some (scheme, rest) =>
      let scheme := scheme.map lowerByte
      let (rest, query) := cutAt 63 rest
      if rest.head? ≠ some 47 then
        if scheme ≠ [] then
          some ⟨scheme, rest, [], [], query.getD [], frag.getD []⟩
        else if (cutAt 47 rest).1.contains 58 then none
        else some ⟨scheme, [], [], rest, query.getD [], frag.getD []⟩
      else if strStartsWith rest [47, 47] then
        let (authority, path) := cutAt 47 (rest.drop 2)
        some ⟨scheme, [], authority, (path.map (fun p => 47 :: p)).getD [],
          query.getD [], frag.getD []⟩
      else some ⟨scheme, [], [], rest, query.getD [], frag.getD []⟩

/-- The text up to and including the last `/`. -/
def dirOf (path : Str) : Str :=
  (path.reverse.dropWhile (fun c => c != 47)).reverse

/-- The instance of `(*URL).ResolveReference`, with `u` the receiver. -/
def exampleResolve (u ref : URL) : URL :=
  if ref.Scheme ≠ [] then ref
  else if ref.Host ≠ [] then { ref with Scheme := u.Scheme }
  else if ref.Opaque ≠ [] then { ref with Scheme := u.Scheme, Host := [], Path := [] }
  else if ref.Path = [] then
    if ref.RawQuery = [] then
      ⟨u.Scheme, u.Opaque, u.Host, u.Path, u.RawQuery,
        if ref.Fragment = [] then u.Fragment else ref.Fragment⟩
    else ⟨u.Scheme, u.Opaque, u.Host, u.Path, ref.RawQuery, ref.Fragment⟩
  else if ref.Path.head? = some 47 then
    ⟨u.Scheme, [], u.Host, ref.Path, ref.RawQuery, ref.Fragment⟩
  else ⟨u.Scheme, [], u.Host, dirOf u.Path ++ ref.Path, ref.RawQuery, ref.Fragment⟩

/-- The instance of `(*URL).String`. -/
def exampleString (u : URL) : Str :=
  (if u.Scheme ≠ [] then u.Scheme ++ [58] else []) ++
  (if u.Opaque ≠ [] then u.Opaque
   else
     (if (u.Scheme ≠ [] ∨ u.Host ≠ []) ∧ (u.Host ≠ [] ∨ u.Path ≠ []) then [47, 47] ++ u.Host
      else []) ++
     (if u.Path ≠ [] ∧ u.Path.head? ≠ some 47 ∧ u.Host ≠ [] then [47] else []) ++ u.Path) ++
  (if u.RawQuery ≠ [] then 63 :: u.RawQuery else []) ++
  (if u.Fragment ≠ [] then 35 :: u.Fragment else [])

/-- The instance of the library used by the worked examples; every string that
reaches `mapToLower` in them is ASCII, where `strings.ToLower` does not call it. -/
def exampleLib : GoLib := ⟨fun s => s, exampleParse, exampleResolve, exampleString⟩

/-! ## Statements of the specification -/

/-- The validation rule of the specification: a candidate is rejected when its
lowercased form contains `example` or `email`, when it is shorter than 5 bytes,
or when it contains `.png`, `.jpg`, `.webp` or `.gif`. -/
def Rejected (lib : GoLib) (s : Str) : Prop :=
  bytes "example" <:+: strToLower lib s ∨ bytes "email" <:+: strToLower lib s ∨
  s.length < 5 ∨
  bytes ".png" <:+: s ∨ bytes ".jpg" <:+: s ∨ bytes ".webp" <:+: s ∨ bytes ".gif" <:+: s

/-- A letter `A`..`Z` or `a`..`z`. -/
def isLetter (c : Nat) : Prop := (65 ≤ c ∧ c ≤ 90) ∨ (97 ≤ c ∧ c ≤ 122)

/-- A digit `0`..`9`. -/
def isDigit (c : Nat) : Prop := 48 ≤ c ∧ c ≤ 57

/-- The email pattern of the specification: a non-empty local part over
`[A-Za-z0-9._%+-]`, then `@`, a non-empty domain over `[A-Za-z0-9.-]`, then `.`,
then at least two letters. -/
def EmailToken (e : Str) : Prop :=
  ∃ loc dom tld, e = loc ++ [64] ++ dom ++ [46] ++ tld ∧
    loc ≠ [] ∧ (∀ c ∈ loc, isLetter c ∨ isDigit c ∨ c = 46 ∨ c = 95 ∨ c = 37 ∨ c = 43 ∨ c = 45) ∧
    dom ≠ [] ∧ (∀ c ∈ dom, isLetter c ∨ isDigit c ∨ c = 46 ∨ c = 45) ∧
    2 ≤ tld.length ∧ ∀ c ∈ tld, isLetter c

/-- Every captured `href` value of a page, in the order the loops visit them:
the double-quoted ones, then the single-quoted ones. -/
def hrefValues (html : Str) : List Str :=
  hrefPatterns.flatMap (fun pattern => (FindAllStringSubmatch pattern html).map Match.group)

/-- The text of a link that is scanned for emails: the link without its first
7 bytes when its lowercased form starts with `mailto:`, else the link. -/
def scannedText (lib : GoLib) (link : Str) : Str :=
  if strStartsWith (strToLower lib link) (bytes "mailto:") then link.drop 7 else link

/-- The link `link` of a page fetched at `targetURL` resolves to the URL `l`
and the host of `l` is the host of `baseURL`. -/
def ResolvesTo (lib : GoLib) (targetURL baseURL link l : Str) : Prop :=
  shouldExclude lib link = false ∧
  strStartsWith (strToLower lib link) (bytes "mailto:") = false ∧
  ∃ absoluteLink base baseParsed resolvedParsed,
    lib.urlParse link = some absoluteLink ∧ lib.urlParse targetURL = some base ∧
    l = lib.urlString (lib.resolveReference base absoluteLink) ∧
    lib.urlParse baseURL = some baseParsed ∧ lib.urlParse l = some resolvedParsed ∧
    resolvedParsed.Host = baseParsed.Host

/-- The URL that the loop body adds to the link set for `link`, if any. -/
def newLink (lib : GoLib) (targetURL baseURL link : Str) : Option Str :=
  if shouldExclude lib link then none
  else if strStartsWith (strToLower lib link) (bytes "mailto:") then none
  else
    match lib.urlParse link, lib.urlParse targetURL, lib.urlParse baseURL with
    | some absoluteLink, some base, some baseParsed =>
      match lib.urlParse (lib.urlString (lib.resolveReference base absoluteLink)) with
      | some resolvedParsed =>
        if resolvedParsed.Host = baseParsed.Host then
          some (lib.urlString (lib.resolveReference base absoluteLink))
        else none
      | none => none
    | _, _, _ => none

/-- The host of `l` is the host of the origin URL, as `url.Parse` reports them. -/
def SameHost (lib : GoLib) (baseURL l : Str) : Prop :=
  ∃ resolvedParsed baseParsed,
    lib.urlParse l = some resolvedParsed ∧ lib.urlParse baseURL = some baseParsed ∧
    resolvedParsed.Host = baseParsed.Host

/-- One copy of `url` for every occurrence of `x` in `emails`. -/
def occurrences (emails : List Str) (x url : Str) : List Str :=
  (emails.filter (fun e => decide (e = x))).map (fun _ => url)

/-- The three URL parses whose error `extractor.go` drops succeed for `link`,
whenever the loop body reaches them. -/
def LinkParses (lib : GoLib) (targetURL baseURL link : Str) : Prop :=
  shouldExclude lib link = false →
  strStartsWith (strToLower lib link) (bytes "mailto:") = false →
  ∀ absoluteLink, lib.urlParse link = some absoluteLink →
    ∃ base baseParsed resolvedParsed,
      lib.urlParse targetURL = some base ∧ lib.urlParse baseURL = some baseParsed ∧
      lib.urlParse (lib.urlString (lib.resolveReference base absoluteLink)) =
        some resolvedParsed

/-- No href value of the page makes `extractor.go` use a `nil` URL. -/
def PageParses (lib : GoLib) (targetURL baseURL body : Str) : Prop :=
  ∀ link ∈ hrefValues body, LinkParses lib targetURL baseURL link

/-- A pattern every match of which consumes at least one byte. -/
def Consuming (re : List Item) : Prop :=
  ∀ cap prev s pos m, matchItems re cap prev s pos = some m → pos < m.stop

/-- The strings a pattern can match, assertions and group marks aside. -/
def Lang : List Item → Str → Prop
  | [], w => w = []
  | Item.one c :: r, w => ∃ x rest, w = x :: rest ∧ c.mem x = true ∧ Lang r rest
  | Item.many c :: r, w => ∃ w1 w2, w = w1 ++ w2 ∧ (∀ x ∈ w1, c.mem x = true) ∧ Lang r w2
  | Item.wordB :: r, w => Lang r w
  | Item.capOpen :: r, w => Lang r w
  | Item.capClose :: r, w => Lang r w

/-- The email pattern as the source writes it: the pattern of the
specification with `|` also accepted in the top-level domain. -/
def SourceToken (e : Str) : Prop :=
  ∃ loc dom tld, e = loc ++ [64] ++ dom ++ [46] ++ tld ∧
    loc ≠ [] ∧ (∀ c ∈ loc, isLetter c ∨ isDigit c ∨ c = 46 ∨ c = 95 ∨ c = 37 ∨ c = 43 ∨ c = 45) ∧
    dom ≠ [] ∧ (∀ c ∈ dom, isLetter c ∨ isDigit c ∨ c = 46 ∨ c = 45) ∧
    2 ≤ tld.length ∧ ∀ c ∈ tld, isLetter c ∨ c = 124

/-! ## Theorems -/

theorem strContains_iff (s sub : Str) : strContains s sub = true ↔ sub <:+: s := by
  induction s with
  | nil =>
    simp only [strContains, List.isPrefixOf_iff_prefix]
    constructor
    · intro h; exact h.isInfix
    · intro h; rw [List.eq_nil_of_infix_nil h]
  | cons x xs ih =>
    simp only [strContains, Bool.or_eq_true, List.isPrefixOf_iff_prefix, ih, List.infix_cons_iff]

theorem strContains_false_iff (s sub : Str) : strContains s sub = false ↔ ¬ sub <:+: s := by
  rw [← strContains_iff]; simp

/-- C1: on every string both copies of `isValidEmail` return false exactly when
the lowercased string contains `example` or `email`, or the string has fewer
than 5 bytes, or it contains `.png`, `.jpg`, `.webp` or `.gif`, and true on
every other string; `a@b.co` and `x@y.z` are valid and `info@email.com` is not. -/
theorem isValidEmail_rule (lib : GoLib) (s : Str) :
    (Main.isValidEmail lib s = false ↔ Rejected lib s) ∧
    (Main.isValidEmail lib s = true ↔ ¬ Rejected lib s) ∧
    (Extractor.isValidEmail lib s = false ↔ Rejected lib s) ∧
    (Extractor.isValidEmail lib s = true ↔ ¬ Rejected lib s) ∧
    Main.isValidEmail lib (bytes "a@b.co") = true ∧
    Main.isValidEmail lib (bytes "x@y.z") = true ∧
    Main.isValidEmail lib (bytes "info@email.com") = false ∧
    Extractor.isValidEmail lib (bytes "a@b.co") = true ∧
    Extractor.isValidEmail lib (bytes "x@y.z") = true ∧
    Extractor.isValidEmail lib (bytes "info@email.com") = false := by
  have hm : Main.isValidEmail lib s = false ↔ Rejected lib s := by
    unfold Main.isValidEmail Rejected
    simp only [← strContains_iff]
    by_cases h1 : strContains (strToLower lib s) (bytes "example") = true
    · simp [h1]
    by_cases h2 : strContains (strToLower lib s) (bytes "email") = true
    · simp [h2]
    by_cases h3 : s.length < 5
    · simp [h3]
    simp only [h1, h2, h3, false_or, Bool.false_eq_true, if_false]
    cases strContains s (bytes ".png") <;> cases strContains s (bytes ".jpg") <;>
      cases strContains s (bytes ".webp") <;> cases strContains s (bytes ".gif") <;> simp
  have he : Extractor.isValidEmail lib s = false ↔ Rejected lib s := by
    unfold Extractor.isValidEmail Rejected
    simp only [← strContains_iff]
    by_cases h1 : strContains (strToLower lib s) (bytes "example") = true
    · simp [h1]
    by_cases h2 : strContains (strToLower lib s) (bytes "email") = true
    · simp [h2]
    by_cases h3 : s.length < 5
    · simp [h3]
    simp only [h1, h2, h3, false_or, Bool.false_eq_true, if_false]
    cases strContains s (bytes ".png") <;> cases strContains s (bytes ".jpg") <;>
      cases strContains s (bytes ".webp") <;> cases strContains s (bytes ".gif") <;> simp
  refine ⟨hm, ?_, he, ?_, rfl, rfl, rfl, rfl, rfl, rfl⟩
  · rw [← hm]; simp
  · rw [← he]; simp

/-! ### Sets and the email loop -/

theorem mem_setAdd (m : List Str) (k x : Str) : x ∈ setAdd m k ↔ x ∈ m ∨ x = k := by
  unfold setAdd
  by_cases h : k ∈ m
  · simp only [h, if_true]
    constructor
    · exact Or.inl
    · rintro (h1 | h1)
      · exact h1
      · exact h1 ▸ h
  · simp [h]

theorem nodup_setAdd (m : List Str) (k : Str) (h : m.Nodup) : (setAdd m k).Nodup := by
  unfold setAdd
  by_cases hk : k ∈ m
  · simpa [hk] using h
  · simp only [hk, if_false]
    exact List.Nodup.append h (List.nodup_singleton k) (by simpa using hk)

theorem mem_foldl_addEmails (valid : Str → Bool) (toks : List Str) (emails : List Str) (e : Str) :
    e ∈ toks.foldl
        (fun acc email => if email ≠ [] ∧ valid email = true then setAdd acc email else acc)
        emails ↔
      e ∈ emails ∨ (e ∈ toks ∧ e ≠ [] ∧ valid e = true) := by
  induction toks generalizing emails with
  | nil => simp
  | cons t ts ih =>
    rw [List.foldl_cons, ih]
    by_cases ht : t ≠ [] ∧ valid t = true
    · rw [if_pos ht, mem_setAdd]
      constructor
      · rintro ((h | h) | h)
        · exact Or.inl h
        · exact Or.inr ⟨h ▸ List.mem_cons_self _ _, h ▸ ht.1, h ▸ ht.2⟩
        · exact Or.inr ⟨List.mem_cons_of_mem _ h.1, h.2⟩
      · rintro (h | ⟨h, h2⟩)
        · exact Or.inl (Or.inl h)
        · rcases List.mem_cons.1 h with h | h
          · exact Or.inl (Or.inr h)
          · exact Or.inr ⟨h, h2⟩
    · rw [if_neg ht]
      constructor
      · rintro (h | h)
        · exact Or.inl h
        · exact Or.inr ⟨List.mem_cons_of_mem _ h.1, h.2⟩
      · rintro (h | ⟨h, h2⟩)
        · exact Or.inl h
        · rcases List.mem_cons.1 h with h | h
          · exact absurd (h ▸ h2) ht
          · exact Or.inr ⟨h, h2⟩

theorem mem_addEmails (valid : Str → Bool) (emails : List Str) (text e : Str) :
    e ∈ addEmails valid emails text ↔
      e ∈ emails ∨ (e ∈ FindAllString emailRegex text ∧ e ≠ [] ∧ valid e = true) :=
  mem_foldl_addEmails valid _ emails e

theorem nodup_addEmails (valid : Str → Bool) (emails : List Str) (text : Str)
    (h : emails.Nodup) : (addEmails valid emails text).Nodup := by
  unfold addEmails
  generalize FindAllString emailRegex text = toks
  induction toks generalizing emails with
  | nil => simpa using h
  | cons t ts ih =>
    rw [List.foldl_cons]
    apply ih
    split
    · exact nodup_setAdd _ _ h
    · exact h

/-- The two copies of `isValidEmail` are the same function. -/
theorem isValidEmail_eq (lib : GoLib) : Extractor.isValidEmail lib = Main.isValidEmail lib := by
  funext s
  unfold Extractor.isValidEmail Main.isValidEmail
  cases strContains (strToLower lib s) (bytes "example") <;>
    cases strContains (strToLower lib s) (bytes "email") <;>
    by_cases h : s.length < 5 <;> simp [h]

/-- A string that passes `isValidEmail` has at least 5 bytes. -/
theorem length_of_isValidEmail (lib : GoLib) (s : Str) (h : Main.isValidEmail lib s = true) :
    5 ≤ s.length := by
  unfold Main.isValidEmail at h
  by_cases h3 : s.length < 5
  · simp [h3] at h
  · omega

theorem ne_nil_of_isValidEmail (lib : GoLib) (s : Str) (h : Main.isValidEmail lib s = true) :
    s ≠ [] := by
  have := length_of_isValidEmail lib s h
  intro hs
  rw [hs] at this
  simp at this

/-! ### The link loop of `emailhunter.go` -/

theorem Main.scanLinks_eq (lib : GoLib) (targetURL baseURL html : Str)
    (result : ExtractionResult) :
    Main.scanLinks lib targetURL baseURL html result =
      (hrefValues html).foldl (Main.processLink lib targetURL baseURL) result := by
  simp [Main.scanLinks, hrefValues, hrefPatterns, List.foldl_map, List.flatMap]

theorem Main.processLink_excluded (lib : GoLib) (targetURL baseURL : Str)
    (result : ExtractionResult) (link : Str) (h : shouldExclude lib link = true) :
    Main.processLink lib targetURL baseURL result link = result := by
  simp [Main.processLink, h]

/-- The fields of the result after one link. -/
theorem Main.processLink_eq (lib : GoLib) (targetURL baseURL : Str)
    (result : ExtractionResult) (link : Str) :
    Main.processLink lib targetURL baseURL result link =
      ⟨if shouldExclude lib link then result.Emails
        else addEmails (Main.isValidEmail lib) result.Emails (scannedText lib link),
       match newLink lib targetURL baseURL link with
        | some l => setAdd result.Links l
        | none => result.Links,
       result.Error, result.URL⟩ := by
  unfold Main.processLink newLink scannedText
  by_cases h1 : shouldExclude lib link = true
  · simp [h1]
  by_cases h2 : strStartsWith (strToLower lib link) (bytes "mailto:") = true
  · simp [h1, h2]
  simp only [h1, h2, if_false, Bool.false_eq_true]
  cases lib.urlParse link with
  | none => rfl
  | some a =>
    dsimp only
    cases lib.urlParse targetURL with
    | none => rfl
    | some b =>
      dsimp only
      cases lib.urlParse baseURL with
      | none => rfl
      | some bp =>
        dsimp only
        cases lib.urlParse (lib.urlString (lib.resolveReference b a)) with
        | none => rfl
        | some rp =>
          by_cases hh : rp.Host = bp.Host
          · simp [hh]
          · simp [hh]

theorem newLink_eq_some_iff (lib : GoLib) (targetURL baseURL link l : Str) :
    newLink lib targetURL baseURL link = some l ↔ ResolvesTo lib targetURL baseURL link l := by
  unfold newLink ResolvesTo
  by_cases h1 : shouldExclude lib link = true
  · simp [h1]
  by_cases h2 : strStartsWith (strToLower lib link) (bytes "mailto:") = true
  · simp [h1, h2]
  simp only [h1, h2, if_false, Bool.false_eq_true]
  cases lib.urlParse link with
  | none => simp
  | some a =>
    try dsimp only
    cases lib.urlParse targetURL with
    | none => simp
    | some b =>
      try dsimp only
      cases lib.urlParse baseURL with
      | none => simp
      | some bp =>
        try dsimp only
        cases hrp : lib.urlParse (lib.urlString (lib.resolveReference b a)) with
        | none =>
          constructor
          · intro h; cases h
          · rintro ⟨_, _, a2, b2, bp2, rp2, ha2, hb2, hl, _, hp, _⟩
            cases ha2; cases hb2
            rw [hl, hrp] at hp
            cases hp
        | some rp =>
          by_cases hh : rp.Host = bp.Host
          · simp only [hh, if_true, Option.some.injEq]
            constructor
            · intro hl
              exact ⟨trivial, trivial, a, b, bp, rp, rfl, rfl, hl.symm, rfl,
                by rw [← hl, hrp], hh⟩
            · rintro ⟨_, _, a2, b2, bp2, rp2, ha2, hb2, hl, _, _, _⟩
              cases ha2; cases hb2
              exact hl.symm
          · simp only [hh, if_false]
            constructor
            · intro h; cases h
            · rintro ⟨_, _, a2, b2, bp2, rp2, ha2, hb2, hl, hbp2, hp, hh2⟩
              cases ha2; cases hb2; cases hbp2
              rw [hl, hrp] at hp
              cases hp
              exact absurd hh2 hh

theorem newLink_of_parses (lib : GoLib) (targetURL baseURL link : Str) (a b bp rp : URL)
    (h1 : shouldExclude lib link = false)
    (h2 : strStartsWith (strToLower lib link) (bytes "mailto:") = false)
    (ha : lib.urlParse link = some a) (hb : lib.urlParse targetURL = some b)
    (hbp : lib.urlParse baseURL = some bp)
    (hrp : lib.urlParse (lib.urlString (lib.resolveReference b a)) = some rp) :
    newLink lib targetURL baseURL link =
      if rp.Host = bp.Host then some (lib.urlString (lib.resolveReference b a)) else none := by
  unfold newLink
  simp only [h1, h2, Bool.false_eq_true, if_false, ha, hb, hbp, hrp]

theorem Main.processLink_Emails (lib : GoLib) (targetURL baseURL : Str)
    (result : ExtractionResult) (link : Str) :
    (Main.processLink lib targetURL baseURL result link).Emails =
      if shouldExclude lib link then result.Emails
      else addEmails (Main.isValidEmail lib) result.Emails (scannedText lib link) := by
  rw [Main.processLink_eq]

theorem Main.mem_processLink_Links (lib : GoLib) (targetURL baseURL : Str)
    (result : ExtractionResult) (link l : Str) :
    l ∈ (Main.processLink lib targetURL baseURL result link).Links ↔
      l ∈ result.Links ∨ ResolvesTo lib targetURL baseURL link l := by
  rw [Main.processLink_eq, ← newLink_eq_some_iff]
  cases newLink lib targetURL baseURL link with
  | none => simp
  | some l2 =>
    simp only [mem_setAdd, Option.some.injEq]
    constructor
    · rintro (h | h)
      · exact Or.inl h
      · exact Or.inr h.symm
    · rintro (h | h)
      · exact Or.inl h
      · exact Or.inr h.symm

theorem Main.processLink_nodup (lib : GoLib) (targetURL baseURL : Str)
    (result : ExtractionResult) (link : Str)
    (h : result.Emails.Nodup ∧ result.Links.Nodup) :
    (Main.processLink lib targetURL baseURL result link).Emails.Nodup ∧
    (Main.processLink lib targetURL baseURL result link).Links.Nodup := by
  rw [Main.processLink_eq]
  constructor
  · show (if shouldExclude lib link then result.Emails
      else addEmails (Main.isValidEmail lib) result.Emails (scannedText lib link)).Nodup
    split
    · exact h.1
    · exact nodup_addEmails _ _ _ h.1
  · show (match newLink lib targetURL baseURL link with
        | some l => setAdd result.Links l
        | none => result.Links).Nodup
    split
    · exact nodup_setAdd _ _ h.2
    · exact h.2

theorem Main.foldl_processLink_fields (lib : GoLib) (targetURL baseURL : Str)
    (links : List Str) (result : ExtractionResult) :
    (links.foldl (Main.processLink lib targetURL baseURL) result).URL = result.URL ∧
    (links.foldl (Main.processLink lib targetURL baseURL) result).Error = result.Error := by
  induction links generalizing result with
  | nil => exact ⟨rfl, rfl⟩
  | cons x xs ih =>
    rw [List.foldl_cons]
    have h := ih (Main.processLink lib targetURL baseURL result x)
    rw [Main.processLink_eq] at h
    rw [Main.processLink_eq]
    exact h

theorem Main.foldl_processLink_nodup (lib : GoLib) (targetURL baseURL : Str)
    (links : List Str) (result : ExtractionResult)
    (h : result.Emails.Nodup ∧ result.Links.Nodup) :
    (links.foldl (Main.processLink lib targetURL baseURL) result).Emails.Nodup ∧
    (links.foldl (Main.processLink lib targetURL baseURL) result).Links.Nodup := by
  induction links generalizing result with
  | nil => exact h
  | cons x xs ih =>
    rw [List.foldl_cons]
    exact ih _ (Main.processLink_nodup lib targetURL baseURL result x h)

theorem Main.mem_foldl_processLink_Emails (lib : GoLib) (targetURL baseURL : Str)
    (links : List Str) (result : ExtractionResult) (e : Str) :
    e ∈ (links.foldl (Main.processLink lib targetURL baseURL) result).Emails ↔
      e ∈ result.Emails ∨
      ∃ link ∈ links, shouldExclude lib link = false ∧
        e ∈ FindAllString emailRegex (scannedText lib link) ∧ e ≠ [] ∧
        Main.isValidEmail lib e = true := by
  induction links generalizing result with
  | nil => simp
  | cons x xs ih =>
    rw [List.foldl_cons, ih, Main.processLink_Emails]
    by_cases hx : shouldExclude lib x = true
    · simp only [hx, if_true, List.mem_cons, exists_eq_or_imp, Bool.true_eq_false, false_and,
        false_or]
    · have hxf : shouldExclude lib x = false := by simpa using hx
      simp only [hxf, Bool.false_eq_true, if_false, mem_addEmails, List.mem_cons,
        exists_eq_or_imp, true_and, or_assoc]

theorem Main.mem_foldl_processLink_Links (lib : GoLib) (targetURL baseURL : Str)
    (links : List Str) (result : ExtractionResult) (l : Str) :
    l ∈ (links.foldl (Main.processLink lib targetURL baseURL) result).Links ↔
      l ∈ result.Links ∨ ∃ link ∈ links, ResolvesTo lib targetURL baseURL link l := by
  induction links generalizing result with
  | nil => simp
  | cons x xs ih =>
    rw [List.foldl_cons, ih, Main.mem_processLink_Links]
    simp only [List.mem_cons, exists_eq_or_imp, or_assoc]

/-! ### `extractEmailsAndLinks` of `emailhunter.go` -/

theorem Main.extract_getError (lib : GoLib) (targetURL baseURL err : Str) :
    Main.extractEmailsAndLinks lib targetURL baseURL (FetchOutcome.getError err) =
      ⟨[], [], some err, targetURL⟩ := rfl

theorem Main.extract_status (lib : GoLib) (targetURL baseURL : Str) (status : Nat)
    (body : Str) (readErr : Option Str) (h : status ≠ 200) :
    Main.extractEmailsAndLinks lib targetURL baseURL
        (FetchOutcome.response status body readErr) = ⟨[], [], none, targetURL⟩ := by
  simp [Main.extractEmailsAndLinks, h]

theorem Main.extract_readErr (lib : GoLib) (targetURL baseURL body err : Str) :
    Main.extractEmailsAndLinks lib targetURL baseURL
        (FetchOutcome.response 200 body (some err)) = ⟨[], [], some err, targetURL⟩ := by
  simp [Main.extractEmailsAndLinks]

theorem Main.extract_ok (lib : GoLib) (targetURL baseURL body : Str) :
    Main.extractEmailsAndLinks lib targetURL baseURL (FetchOutcome.response 200 body none) =
      ⟨addEmails (Main.isValidEmail lib)
          ((hrefValues body).foldl (Main.processLink lib targetURL baseURL)
            ⟨[], [], none, targetURL⟩).Emails body,
        ((hrefValues body).foldl (Main.processLink lib targetURL baseURL)
            ⟨[], [], none, targetURL⟩).Links,
        none, targetURL⟩ := by
  have h := Main.foldl_processLink_fields lib targetURL baseURL (hrefValues body)
    ⟨[], [], none, targetURL⟩
  simp only [Main.extractEmailsAndLinks, Main.scanLinks_eq, ne_eq, not_true_eq_false, if_false]
  rw [h.1, h.2]

/-- The email set of a page that was fetched and read: the valid tokens of the
whole body and of the scanned text of every href value that is not excluded. -/
theorem Main.mem_extract_Emails (lib : GoLib) (targetURL baseURL body e : Str) :
    e ∈ (Main.extractEmailsAndLinks lib targetURL baseURL
          (FetchOutcome.response 200 body none)).Emails ↔
      (e ≠ [] ∧ Main.isValidEmail lib e = true) ∧
      (e ∈ FindAllString emailRegex body ∨
        ∃ link ∈ hrefValues body, shouldExclude lib link = false ∧
          e ∈ FindAllString emailRegex (scannedText lib link)) := by
  rw [Main.extract_ok]
  simp only [mem_addEmails, Main.mem_foldl_processLink_Emails, List.not_mem_nil, false_or]
  constructor
  · rintro (⟨link, hl, hx, ht, hv⟩ | ⟨ht, hv⟩)
    · exact ⟨hv, Or.inr ⟨link, hl, hx, ht⟩⟩
    · exact ⟨hv, Or.inl ht⟩
  · rintro ⟨hv, ht | ⟨link, hl, hx, ht⟩⟩
    · exact Or.inr ⟨ht, hv⟩
    · exact Or.inl ⟨link, hl, hx, ht, hv⟩

/-- The link set of a page that was fetched and read. -/
theorem Main.mem_extract_Links (lib : GoLib) (targetURL baseURL body l : Str) :
    l ∈ (Main.extractEmailsAndLinks lib targetURL baseURL
          (FetchOutcome.response 200 body none)).Links ↔
      ∃ link ∈ hrefValues body, ResolvesTo lib targetURL baseURL link l := by
  rw [Main.extract_ok]
  simp only [Main.mem_foldl_processLink_Links, List.not_mem_nil, false_or]

/-- Every fetch outcome is one of the four cases of `extractEmailsAndLinks`. -/
theorem FetchOutcome.cases4 (fetch : FetchOutcome) :
    (∃ err, fetch = FetchOutcome.getError err) ∨
    (∃ status body readErr, status ≠ 200 ∧ fetch = FetchOutcome.response status body readErr) ∨
    (∃ body err, fetch = FetchOutcome.response 200 body (some err)) ∨
    (∃ body, fetch = FetchOutcome.response 200 body none) := by
  cases fetch with
  | getError err => exact Or.inl ⟨err, rfl⟩
  | response status body readErr =>
    by_cases h : status = 200
    · subst h
      cases readErr with
      | none => exact Or.inr (Or.inr (Or.inr ⟨body, rfl⟩))
      | some err => exact Or.inr (Or.inr (Or.inl ⟨body, err, rfl⟩))
    · exact Or.inr (Or.inl ⟨status, body, readErr, h, rfl⟩)

theorem Main.extract_nodup (lib : GoLib) (targetURL baseURL : Str) (fetch : FetchOutcome) :
    (Main.extractEmailsAndLinks lib targetURL baseURL fetch).Emails.Nodup ∧
    (Main.extractEmailsAndLinks lib targetURL baseURL fetch).Links.Nodup := by
  rcases FetchOutcome.cases4 fetch with ⟨err, h⟩ | ⟨st, body, re, hst, h⟩ | ⟨body, err, h⟩ |
    ⟨body, h⟩
  · subst h; rw [Main.extract_getError]; exact ⟨List.nodup_nil, List.nodup_nil⟩
  · subst h; rw [Main.extract_status _ _ _ _ _ _ hst]; exact ⟨List.nodup_nil, List.nodup_nil⟩
  · subst h; rw [Main.extract_readErr]; exact ⟨List.nodup_nil, List.nodup_nil⟩
  · subst h
    rw [Main.extract_ok]
    have h := Main.foldl_processLink_nodup lib targetURL baseURL (hrefValues body)
      ⟨[], [], none, targetURL⟩ ⟨List.nodup_nil, List.nodup_nil⟩
    exact ⟨nodup_addEmails _ _ _ h.1, h.2⟩

theorem Main.extract_URL (lib : GoLib) (targetURL baseURL : Str) (fetch : FetchOutcome) :
    (Main.extractEmailsAndLinks lib targetURL baseURL fetch).URL = targetURL := by
  rcases FetchOutcome.cases4 fetch with ⟨err, h⟩ | ⟨st, body, re, hst, h⟩ | ⟨body, err, h⟩ |
    ⟨body, h⟩
  · subst h; rfl
  · subst h; rw [Main.extract_status _ _ _ _ _ _ hst]
  · subst h; rw [Main.extract_readErr]
  · subst h; rw [Main.extract_ok]

/-! ### `extractor.go` against `emailhunter.go` -/

theorem Extractor.ext_processLink_excluded (lib : GoLib) (targetURL baseURL : Str)
    (result : ExtractionResult) (link : Str) (h : shouldExclude lib link = true) :
    Extractor.processLink lib targetURL baseURL result link = some result := by
  simp [Extractor.processLink, h]

/-- Where the loop body of `extractor.go` does not panic it computes what the
loop body of `emailhunter.go` computes. -/
theorem Extractor.processLink_some (lib : GoLib) (targetURL baseURL : Str)
    (result r : ExtractionResult) (link : Str)
    (h : Extractor.processLink lib targetURL baseURL result link = some r) :
    r = Main.processLink lib targetURL baseURL result link := by
  unfold Extractor.processLink at h
  unfold Main.processLink
  rw [isValidEmail_eq] at h
  by_cases h1 : shouldExclude lib link = true
  · simp only [h1, if_true, Option.some.injEq] at h ⊢
    exact h.symm
  by_cases h2 : strStartsWith (strToLower lib link) (bytes "mailto:") = true
  · simp only [h1, h2, if_true, if_false, Bool.false_eq_true, Option.some.injEq] at h ⊢
    exact h.symm
  simp only [h1, h2, if_false, Bool.false_eq_true] at h ⊢
  cases ha : lib.urlParse link with
  | none =>
    rw [ha] at h
    simp only [Option.some.injEq] at h
    exact h.symm
  | some a =>
    rw [ha] at h
    dsimp only at h ⊢
    cases hb : lib.urlParse targetURL with
    | none => rw [hb] at h; cases h
    | some b =>
      rw [hb] at h
      dsimp only at h ⊢
      cases hbp : lib.urlParse baseURL with
      | none => rw [hbp] at h; cases h
      | some bp =>
        rw [hbp] at h
        dsimp only at h ⊢
        cases hrp : lib.urlParse (lib.urlString (lib.resolveReference b a)) with
        | none => rw [hrp] at h; cases h
        | some rp =>
          rw [hrp] at h
          dsimp only at h ⊢
          by_cases hh : rp.Host = bp.Host
          · simp only [hh, if_true, Option.some.injEq] at h ⊢
            exact h.symm
          · simp only [hh, if_false, Option.some.injEq] at h ⊢
            exact h.symm

theorem Extractor.foldl_none (lib : GoLib) (targetURL baseURL : Str) (ms : List Match) :
    ms.foldl
      (fun acc m =>
        acc.bind (fun result => Extractor.processLink lib targetURL baseURL result m.group))
      none = none := by
  induction ms with
  | nil => rfl
  | cons m ms ih => rw [List.foldl_cons]; exact ih

theorem Extractor.foldl_some (lib : GoLib) (targetURL baseURL : Str) (ms : List Match)
    (acc : Option ExtractionResult) (result r : ExtractionResult)
    (hacc : acc = some result)
    (h : ms.foldl
      (fun acc m =>
        acc.bind (fun result => Extractor.processLink lib targetURL baseURL result m.group))
      acc = some r) :
    r = (ms.map Match.group).foldl (Main.processLink lib targetURL baseURL) result := by
  induction ms generalizing acc result with
  | nil =>
    simp only [List.foldl_nil, List.map_nil] at h ⊢
    rw [hacc] at h
    exact (Option.some.inj h).symm
  | cons m ms ih =>
    rw [List.foldl_cons] at h
    subst hacc
    have hb : (some result).bind
        (fun result => Extractor.processLink lib targetURL baseURL result m.group) =
        Extractor.processLink lib targetURL baseURL result m.group := rfl
    rw [hb] at h
    cases hp : Extractor.processLink lib targetURL baseURL result m.group with
    | none =>
      rw [hp, Extractor.foldl_none] at h
      cases h
    | some r1 =>
      rw [hp] at h
      rw [List.map_cons, List.foldl_cons,
        ← Extractor.processLink_some lib targetURL baseURL result r1 m.group hp]
      exact ih (some r1) r1 rfl h

theorem Extractor.scanLinks_some (lib : GoLib) (targetURL baseURL html : Str)
    (result r : ExtractionResult)
    (h : Extractor.scanLinks lib targetURL baseURL html result = some r) :
    r = (hrefValues html).foldl (Main.processLink lib targetURL baseURL) result := by
  unfold Extractor.scanLinks at h
  simp only [hrefPatterns, List.foldl_cons, List.foldl_nil] at h
  cases h1 : (FindAllStringSubmatch (hrefPattern 34) html).foldl
      (fun acc m =>
        acc.bind (fun result => Extractor.processLink lib targetURL baseURL result m.group))
      (some result) with
  | none =>
    rw [h1, Extractor.foldl_none] at h
    cases h
  | some r1 =>
    rw [h1] at h
    have e1 := Extractor.foldl_some lib targetURL baseURL _ (some result) result r1 rfl h1
    have e2 := Extractor.foldl_some lib targetURL baseURL _ (some r1) r1 r rfl h
    rw [e2, e1]
    simp [hrefValues, hrefPatterns, List.flatMap, List.foldl_append]

/-- Where `extractEmailsAndLinks` of `extractor.go` returns on a response with
status 200, its result is the one `emailhunter.go` computes for the same body
read without error. -/
theorem Extractor.extract_some (lib : GoLib) (targetURL baseURL body : Str)
    (readErr : Option Str) (r : ExtractionResult)
    (h : Extractor.extractEmailsAndLinks lib targetURL baseURL
      (FetchOutcome.response 200 body readErr) = some r) :
    r = Main.extractEmailsAndLinks lib targetURL baseURL
      (FetchOutcome.response 200 body none) := by
  simp only [Extractor.extractEmailsAndLinks, ne_eq, not_true_eq_false, if_false,
    Option.map_eq_some'] at h
  obtain ⟨r0, h0, hr⟩ := h
  have e := Extractor.scanLinks_some lib targetURL baseURL body _ r0 h0
  have hf := Main.foldl_processLink_fields lib targetURL baseURL (hrefValues body)
    ⟨[], [], none, targetURL⟩
  rw [Main.extract_ok, ← hr, isValidEmail_eq, e, hf.1, hf.2]

theorem Extractor.ext_getError (lib : GoLib) (targetURL baseURL err : Str) :
    Extractor.extractEmailsAndLinks lib targetURL baseURL (FetchOutcome.getError err) =
      some ⟨[], [], some err, targetURL⟩ := rfl

theorem Extractor.ext_status (lib : GoLib) (targetURL baseURL : Str) (status : Nat)
    (body : Str) (readErr : Option Str) (h : status ≠ 200) :
    Extractor.extractEmailsAndLinks lib targetURL baseURL
        (FetchOutcome.response status body readErr) = some ⟨[], [], none, targetURL⟩ := by
  simp [Extractor.extractEmailsAndLinks, h]

/-- The loop body of `extractor.go` returns when its URL parses succeed. -/
theorem Extractor.processLink_of_parses (lib : GoLib) (targetURL baseURL : Str)
    (result : ExtractionResult) (link : Str) (hp : LinkParses lib targetURL baseURL link) :
    Extractor.processLink lib targetURL baseURL result link =
      some (Main.processLink lib targetURL baseURL result link) := by
  have hsome : ∃ r, Extractor.processLink lib targetURL baseURL result link = some r := by
    unfold Extractor.processLink
    by_cases h1 : shouldExclude lib link = true
    · simp only [h1, if_true]; exact ⟨_, rfl⟩
    by_cases h2 : strStartsWith (strToLower lib link) (bytes "mailto:") = true
    · simp only [h1, h2, if_true, if_false, Bool.false_eq_true]; exact ⟨_, rfl⟩
    simp only [h1, h2, if_false, Bool.false_eq_true]
    cases ha : lib.urlParse link with
    | none => exact ⟨_, rfl⟩
    | some a =>
      obtain ⟨b, bp, rp, hb, hbp, hrp⟩ := hp (by simpa using h1) (by simpa using h2) a ha
      dsimp only
      rw [hb]
      dsimp only
      rw [hbp, hrp]
      dsimp only
      by_cases hh : rp.Host = bp.Host
      · simp only [hh, if_true]; exact ⟨_, rfl⟩
      · simp only [hh, if_false]; exact ⟨_, rfl⟩
  obtain ⟨r, hr⟩ := hsome
  rw [hr, Extractor.processLink_some lib targetURL baseURL result r link hr]

theorem Extractor.foldl_of_parses (lib : GoLib) (targetURL baseURL : Str) (ms : List Match)
    (result : ExtractionResult)
    (hp : ∀ m ∈ ms, LinkParses lib targetURL baseURL m.group) :
    ms.foldl
      (fun acc m =>
        acc.bind (fun result => Extractor.processLink lib targetURL baseURL result m.group))
      (some result) =
      some ((ms.map Match.group).foldl (Main.processLink lib targetURL baseURL) result) := by
  induction ms generalizing result with
  | nil => rfl
  | cons m ms ih =>
    rw [List.foldl_cons]
    have hb : (some result).bind
        (fun result => Extractor.processLink lib targetURL baseURL result m.group) =
        Extractor.processLink lib targetURL baseURL result m.group := rfl
    rw [hb, Extractor.processLink_of_parses lib targetURL baseURL result m.group
      (hp m (List.mem_cons_self _ _)), List.map_cons, List.foldl_cons]
    exact ih _ (fun m2 hm2 => hp m2 (List.mem_cons_of_mem _ hm2))

theorem mem_hrefValues (html link : Str) :
    link ∈ hrefValues html ↔
      (∃ m ∈ FindAllStringSubmatch (hrefPattern 34) html, m.group = link) ∨
      (∃ m ∈ FindAllStringSubmatch (hrefPattern 39) html, m.group = link) := by
  simp [hrefValues, hrefPatterns, List.flatMap]

/-- `extractEmailsAndLinks` of `extractor.go` returns on a page none of whose
links yields a `nil` URL, with the result `emailhunter.go` computes for the
same body read without error. -/
theorem Extractor.extract_of_parses (lib : GoLib) (targetURL baseURL body : Str)
    (readErr : Option Str) (hp : PageParses lib targetURL baseURL body) :
    Extractor.extractEmailsAndLinks lib targetURL baseURL
        (FetchOutcome.response 200 body readErr) =
      some (Main.extractEmailsAndLinks lib targetURL baseURL
        (FetchOutcome.response 200 body none)) := by
  have hsome : ∃ r, Extractor.extractEmailsAndLinks lib targetURL baseURL
      (FetchOutcome.response 200 body readErr) = some r := by
    simp only [Extractor.extractEmailsAndLinks, ne_eq, not_true_eq_false, if_false,
      Extractor.scanLinks, hrefPatterns, List.foldl_cons, List.foldl_nil]
    rw [Extractor.foldl_of_parses lib targetURL baseURL _ _
      (fun m hm => hp m.group ((mem_hrefValues body m.group).2 (Or.inl ⟨m, hm, rfl⟩))),
      Extractor.foldl_of_parses lib targetURL baseURL _ _
      (fun m hm => hp m.group ((mem_hrefValues body m.group).2 (Or.inr ⟨m, hm, rfl⟩)))]
    exact ⟨_, rfl⟩
  obtain ⟨r, hr⟩ := hsome
  rw [hr, Extractor.extract_some lib targetURL baseURL body readErr r hr]

/-! ## The claims -/

/-- C2, as stated, fails: the href value `mailto:bob@site.com?subject=report.pdf`
is excluded and the page has no email token outside it, yet the scan of the
whole page body puts `bob@site.com` into the email set. -/
theorem excluded_href_still_scanned :
    hrefValues (bytes "<a href=\"mailto:bob@site.com?subject=report.pdf\">Bob</a>") =
      [bytes "mailto:bob@site.com?subject=report.pdf"] ∧
    shouldExclude exampleLib (bytes "mailto:bob@site.com?subject=report.pdf") = true ∧
    FindAllString emailRegex (bytes "<a href=\"\">Bob</a>") = [] ∧
    Main.extractEmailsAndLinks exampleLib (bytes "https://site.com/") (bytes "https://site.com/")
        (FetchOutcome.response 200
          (bytes "<a href=\"mailto:bob@site.com?subject=report.pdf\">Bob</a>") none) =
      ⟨[bytes "bob@site.com"], [], none, bytes "https://site.com/"⟩ ∧
    Extractor.extractEmailsAndLinks exampleLib (bytes "https://site.com/")
        (bytes "https://site.com/")
        (FetchOutcome.response 200
          (bytes "<a href=\"mailto:bob@site.com?subject=report.pdf\">Bob</a>") none) =
      some ⟨[bytes "bob@site.com"], [], none, bytes "https://site.com/"⟩ := by
  decide

/-- C2, amended: the link loop skips an excluded href value (it leaves the result
unchanged, in both copies; `/logo.PNG` is excluded), the link set holds exactly
the resolved same-host URLs of the href values that are not excluded, and the
email set holds exactly the valid tokens of the whole page body and of the
scanned text of the href values that are not excluded. -/
theorem excluded_href_skipped (lib : GoLib) (targetURL baseURL : Str) :
    shouldExclude lib (bytes "/logo.PNG") = true ∧
    (∀ result link, shouldExclude lib link = true →
      Main.processLink lib targetURL baseURL result link = result ∧
      Extractor.processLink lib targetURL baseURL result link = some result) ∧
    (∀ body l,
      l ∈ (Main.extractEmailsAndLinks lib targetURL baseURL
            (FetchOutcome.response 200 body none)).Links ↔
        ∃ link ∈ hrefValues body, shouldExclude lib link = false ∧
          ResolvesTo lib targetURL baseURL link l) ∧
    (∀ body e,
      e ∈ (Main.extractEmailsAndLinks lib targetURL baseURL
            (FetchOutcome.response 200 body none)).Emails ↔
        (e ≠ [] ∧ Main.isValidEmail lib e = true) ∧
        (e ∈ FindAllString emailRegex body ∨
          ∃ link ∈ hrefValues body, shouldExclude lib link = false ∧
            e ∈ FindAllString emailRegex (scannedText lib link))) ∧
    (∀ body, PageParses lib targetURL baseURL body →
      Extractor.extractEmailsAndLinks lib targetURL baseURL
          (FetchOutcome.response 200 body none) =
        some (Main.extractEmailsAndLinks lib targetURL baseURL
          (FetchOutcome.response 200 body none))) := by
  refine ⟨rfl, ?_, ?_, ?_, ?_⟩
  · intro result link h
    exact ⟨Main.processLink_excluded lib targetURL baseURL result link h,
      Extractor.ext_processLink_excluded lib targetURL baseURL result link h⟩
  · intro body l
    rw [Main.mem_extract_Links]
    constructor
    · rintro ⟨link, hl, hr⟩
      exact ⟨link, hl, hr.1, hr⟩
    · rintro ⟨link, hl, _, hr⟩
      exact ⟨link, hl, hr⟩
  · intro body e
    exact Main.mem_extract_Emails lib targetURL baseURL body e
  · intro body hp
    exact Extractor.extract_of_parses lib targetURL baseURL body none hp

/-- The amended C2 at a page whose only href value is `/logo.PNG`. -/
theorem excluded_href_skipped_witness :
    shouldExclude exampleLib (bytes "/logo.PNG") = true ∧
    Main.processLink exampleLib (bytes "https://a.com/") (bytes "https://a.com/")
        ⟨[], [], none, bytes "https://a.com/"⟩ (bytes "/logo.PNG") =
      ⟨[], [], none, bytes "https://a.com/"⟩ ∧
    Extractor.processLink exampleLib (bytes "https://a.com/") (bytes "https://a.com/")
        ⟨[], [], none, bytes "https://a.com/"⟩ (bytes "/logo.PNG") =
      some ⟨[], [], none, bytes "https://a.com/"⟩ ∧
    Extractor.extractEmailsAndLinks exampleLib (bytes "https://a.com/") (bytes "https://a.com/")
        (FetchOutcome.response 200 (bytes "<a href=\"/logo.PNG\">") none) =
      some (Main.extractEmailsAndLinks exampleLib (bytes "https://a.com/")
        (bytes "https://a.com/")
        (FetchOutcome.response 200 (bytes "<a href=\"/logo.PNG\">") none)) :=
  have h := excluded_href_skipped exampleLib (bytes "https://a.com/") (bytes "https://a.com/")
  ⟨h.1,
    (h.2.1 ⟨[], [], none, bytes "https://a.com/"⟩ (bytes "/logo.PNG") (by decide)).1,
    (h.2.1 ⟨[], [], none, bytes "https://a.com/"⟩ (bytes "/logo.PNG") (by decide)).2,
    h.2.2.2.2 (bytes "<a href=\"/logo.PNG\">") (by
      intro link hl
      have hl2 : link = bytes "/logo.PNG" := by
        have hv : hrefValues (bytes "<a href=\"/logo.PNG\">") = [bytes "/logo.PNG"] := by decide
        rw [hv] at hl
        simpa using hl
      subst hl2
      intro hx
      exact absurd hx (by decide))⟩

/-- C4 at the page body `bob@site.co|m`: the class `[A-Z|a-z]` of the source
accepts the byte `|`, so both copies put `bob@site.co|m` into the email set,
and that string is not a token of the stated pattern. -/
theorem pipe_in_tld :
    Main.extractEmailsAndLinks exampleLib (bytes "https://site.com/") (bytes "https://site.com/")
        (FetchOutcome.response 200 (bytes "bob@site.co|m") none) =
      ⟨[bytes "bob@site.co|m"], [], none, bytes "https://site.com/"⟩ ∧
    Extractor.extractEmailsAndLinks exampleLib (bytes "https://site.com/")
        (bytes "https://site.com/")
        (FetchOutcome.response 200 (bytes "bob@site.co|m") none) =
      some ⟨[bytes "bob@site.co|m"], [], none, bytes "https://site.com/"⟩ ∧
    ¬ EmailToken (bytes "bob@site.co|m") := by
  refine ⟨by decide, by decide, ?_⟩
  rintro ⟨loc, dom, tld, he, _, hloc, _, hdom, _, htld⟩
  have hmem : 124 ∈ loc ++ [64] ++ dom ++ [46] ++ tld := by
    rw [← he]; decide
  simp only [List.mem_append, List.mem_singleton] at hmem
  rcases hmem with (((h | h) | h) | h) | h
  · have := hloc 124 h
    simp only [isLetter, isDigit] at this
    omega
  · omega
  · have := hdom 124 h
    simp only [isLetter, isDigit] at this
    omega
  · omega
  · have := htld 124 h
    simp only [isLetter] at this
    omega

/-- C7, as stated, fails: a response with status 201 carries the valid token
`bob@site.com`, and the email set of both copies is empty; and in
`emailhunter.go` a failure of `io.ReadAll` after a successful round trip sets
the error field. -/
theorem status_201_not_scanned :
    200 ≤ 201 ∧ 201 ≤ 299 ∧
    bytes "bob@site.com" ∈ FindAllString emailRegex (bytes "bob@site.com") ∧
    Main.isValidEmail exampleLib (bytes "bob@site.com") = true ∧
    Main.extractEmailsAndLinks exampleLib (bytes "https://site.com/") (bytes "https://site.com/")
        (FetchOutcome.response 201 (bytes "bob@site.com") none) =
      ⟨[], [], none, bytes "https://site.com/"⟩ ∧
    Extractor.extractEmailsAndLinks exampleLib (bytes "https://site.com/")
        (bytes "https://site.com/")
        (FetchOutcome.response 201 (bytes "bob@site.com") none) =
      some ⟨[], [], none, bytes "https://site.com/"⟩ ∧
    (Main.extractEmailsAndLinks exampleLib (bytes "https://site.com/")
        (bytes "https://site.com/")
        (FetchOutcome.response 200 (bytes "bob@site.com") (some (bytes "unexpected EOF")))).Error =
      some (bytes "unexpected EOF") := by
  decide

/-- C10 at a response with status 200 whose body read fails after the bytes
`bob@site.com`: `emailhunter.go` returns the read error with empty sets,
`extractor.go` drops the error and returns the email found in the bytes read. -/
theorem read_failure_diverges :
    Main.extractEmailsAndLinks exampleLib (bytes "https://site.com/") (bytes "https://site.com/")
        (FetchOutcome.response 200 (bytes "bob@site.com") (some (bytes "unexpected EOF"))) =
      ⟨[], [], some (bytes "unexpected EOF"), bytes "https://site.com/"⟩ ∧
    Extractor.extractEmailsAndLinks exampleLib (bytes "https://site.com/")
        (bytes "https://site.com/")
        (FetchOutcome.response 200 (bytes "bob@site.com") (some (bytes "unexpected EOF"))) =
      some ⟨[bytes "bob@site.com"], [], none, bytes "https://site.com/"⟩ := by
  decide

/-- C7, amended: when the status code is not 200 both copies return empty sets
and no error; when it is 200 and the body is read, no error is set and every
token of the body that passes `isValidEmail` is in the email set; a failed
round trip returns its error with empty sets; and in `emailhunter.go` the error
field is set only by a failed round trip or by a failed read of a 200 body,
each time with empty sets. -/
theorem status_handling (lib : GoLib) (targetURL baseURL : Str) :
    (∀ status body readErr, status ≠ 200 →
      Main.extractEmailsAndLinks lib targetURL baseURL
          (FetchOutcome.response status body readErr) = ⟨[], [], none, targetURL⟩ ∧
      Extractor.extractEmailsAndLinks lib targetURL baseURL
          (FetchOutcome.response status body readErr) = some ⟨[], [], none, targetURL⟩) ∧
    (∀ body,
      (Main.extractEmailsAndLinks lib targetURL baseURL
          (FetchOutcome.response 200 body none)).Error = none ∧
      ∀ e ∈ FindAllString emailRegex body, Main.isValidEmail lib e = true →
        e ∈ (Main.extractEmailsAndLinks lib targetURL baseURL
              (FetchOutcome.response 200 body none)).Emails) ∧
    (∀ body, PageParses lib targetURL baseURL body →
      ∃ r, Extractor.extractEmailsAndLinks lib targetURL baseURL
            (FetchOutcome.response 200 body none) = some r ∧ r.Error = none ∧
        ∀ e ∈ FindAllString emailRegex body, Extractor.isValidEmail lib e = true →
          e ∈ r.Emails) ∧
    (∀ err,
      Main.extractEmailsAndLinks lib targetURL baseURL (FetchOutcome.getError err) =
        ⟨[], [], some err, targetURL⟩ ∧
      Extractor.extractEmailsAndLinks lib targetURL baseURL (FetchOutcome.getError err) =
        some ⟨[], [], some err, targetURL⟩) ∧
    (∀ body err,
      Main.extractEmailsAndLinks lib targetURL baseURL
          (FetchOutcome.response 200 body (some err)) = ⟨[], [], some err, targetURL⟩) ∧
    (∀ fetch err,
      (Main.extractEmailsAndLinks lib targetURL baseURL fetch).Error = some err →
        (fetch = FetchOutcome.getError err ∨
          ∃ body, fetch = FetchOutcome.response 200 body (some err)) ∧
        (Main.extractEmailsAndLinks lib targetURL baseURL fetch).Emails = [] ∧
        (Main.extractEmailsAndLinks lib targetURL baseURL fetch).Links = []) := by
  have hok : ∀ body,
      (Main.extractEmailsAndLinks lib targetURL baseURL
          (FetchOutcome.response 200 body none)).Error = none ∧
      ∀ e ∈ FindAllString emailRegex body, Main.isValidEmail lib e = true →
        e ∈ (Main.extractEmailsAndLinks lib targetURL baseURL
              (FetchOutcome.response 200 body none)).Emails := by
    intro body
    refine ⟨by rw [Main.extract_ok], ?_⟩
    intro e he hv
    rw [Main.mem_extract_Emails]
    exact ⟨⟨ne_nil_of_isValidEmail lib e hv, hv⟩, Or.inl he⟩
  refine ⟨?_, hok, ?_, ?_, ?_, ?_⟩
  · intro status body readErr h
    exact ⟨Main.extract_status lib targetURL baseURL status body readErr h,
      Extractor.ext_status lib targetURL baseURL status body readErr h⟩
  · intro body hp
    refine ⟨_, Extractor.extract_of_parses lib targetURL baseURL body none hp, (hok body).1, ?_⟩
    intro e he hv
    rw [isValidEmail_eq] at hv
    exact (hok body).2 e he hv
  · intro err
    exact ⟨rfl, rfl⟩
  · intro body err
    exact Main.extract_readErr lib targetURL baseURL body err
  · intro fetch err h
    rcases FetchOutcome.cases4 fetch with ⟨err2, hf⟩ | ⟨st, body, re, hst, hf⟩ |
      ⟨body, err2, hf⟩ | ⟨body, hf⟩
    · subst hf
      rw [Main.extract_getError] at h ⊢
      cases h
      exact ⟨Or.inl rfl, rfl, rfl⟩
    · subst hf
      rw [Main.extract_status _ _ _ _ _ _ hst] at h
      cases h
    · subst hf
      rw [Main.extract_readErr] at h ⊢
      cases h
      exact ⟨Or.inr ⟨body, rfl⟩, rfl, rfl⟩
    · subst hf
      rw [(hok body).1] at h
      cases h

/-- The amended C7 at status 404, at a 200 page, and at a failed read. -/
theorem status_handling_witness :
    Main.extractEmailsAndLinks exampleLib (bytes "https://site.com/") (bytes "https://site.com/")
        (FetchOutcome.response 404 (bytes "bob@site.com") none) =
      ⟨[], [], none, bytes "https://site.com/"⟩ ∧
    bytes "bob@site.com" ∈
      (Main.extractEmailsAndLinks exampleLib (bytes "https://site.com/")
        (bytes "https://site.com/")
        (FetchOutcome.response 200 (bytes "write to bob@site.com") none)).Emails ∧
    (∃ r, Extractor.extractEmailsAndLinks exampleLib (bytes "https://site.com/")
          (bytes "https://site.com/")
          (FetchOutcome.response 200 (bytes "write to bob@site.com") none) = some r ∧
        r.Error = none ∧
        ∀ e ∈ FindAllString emailRegex (bytes "write to bob@site.com"),
          Extractor.isValidEmail exampleLib e = true → e ∈ r.Emails) ∧
    ((FetchOutcome.response 200 (bytes "bob@") (some (bytes "unexpected EOF")) =
        FetchOutcome.getError (bytes "unexpected EOF") ∨
      ∃ body, FetchOutcome.response 200 (bytes "bob@") (some (bytes "unexpected EOF")) =
        FetchOutcome.response 200 body (some (bytes "unexpected EOF"))) ∧
      (Main.extractEmailsAndLinks exampleLib (bytes "https://site.com/")
        (bytes "https://site.com/")
        (FetchOutcome.response 200 (bytes "bob@") (some (bytes "unexpected EOF")))).Emails = [] ∧
      (Main.extractEmailsAndLinks exampleLib (bytes "https://site.com/")
        (bytes "https://site.com/")
        (FetchOutcome.response 200 (bytes "bob@") (some (bytes "unexpected EOF")))).Links = []) :=
  have h := status_handling exampleLib (bytes "https://site.com/") (bytes "https://site.com/")
  ⟨(h.1 404 (bytes "bob@site.com") none (by decide)).1,
    (h.2.1 (bytes "write to bob@site.com")).2 (bytes "bob@site.com") (by decide) (by decide),
    h.2.2.1 (bytes "write to bob@site.com") (by
      intro link hl
      have hv : hrefValues (bytes "write to bob@site.com") = [] := by decide
      rw [hv] at hl
      cases hl),
    h.2.2.2.2.2 (FetchOutcome.response 200 (bytes "bob@") (some (bytes "unexpected EOF")))
      (bytes "unexpected EOF") (by decide)⟩

theorem Main.sameHost_of_mem_Links (lib : GoLib) (targetURL baseURL : Str)
    (fetch : FetchOutcome) (l : Str)
    (h : l ∈ (Main.extractEmailsAndLinks lib targetURL baseURL fetch).Links) :
    SameHost lib baseURL l := by
  rcases FetchOutcome.cases4 fetch with ⟨err, hf⟩ | ⟨st, body, re, hst, hf⟩ |
    ⟨body, err, hf⟩ | ⟨body, hf⟩
  · subst hf; rw [Main.extract_getError] at h; cases h
  · subst hf; rw [Main.extract_status _ _ _ _ _ _ hst] at h; cases h
  · subst hf; rw [Main.extract_readErr] at h; cases h
  · subst hf
    rw [Main.mem_extract_Links] at h
    obtain ⟨link, _, _, _, a, b, bp, rp, _, _, _, hbp, hrp, hh⟩ := h
    exact ⟨rp, bp, hrp, hbp, hh⟩

theorem Extractor.ext_sameHost_of_mem_Links (lib : GoLib) (targetURL baseURL : Str)
    (fetch : FetchOutcome) (r : ExtractionResult)
    (hr : Extractor.extractEmailsAndLinks lib targetURL baseURL fetch = some r) (l : Str)
    (h : l ∈ r.Links) : SameHost lib baseURL l := by
  cases fetch with
  | getError err =>
    rw [Extractor.ext_getError] at hr
    cases hr
    cases h
  | response status body readErr =>
    by_cases hst : status = 200
    · subst hst
      rw [Extractor.extract_some lib targetURL baseURL body readErr r hr] at h
      exact Main.sameHost_of_mem_Links lib targetURL baseURL _ l h
    · rw [Extractor.ext_status _ _ _ _ _ _ hst] at hr
      cases hr
      cases h

/-- The result for a page with exactly one href value, which is neither
excluded nor a `mailto:` link and contains no email token. -/
theorem Main.extract_one_link (lib : GoLib) (targetURL baseURL body link : Str)
    (hv : hrefValues body = [link]) (hx : shouldExclude lib link = false)
    (hm : strStartsWith (strToLower lib link) (bytes "mailto:") = false)
    (ht : FindAllString emailRegex link = []) (hb : FindAllString emailRegex body = []) :
    Main.extractEmailsAndLinks lib targetURL baseURL (FetchOutcome.response 200 body none) =
      ⟨[], match newLink lib targetURL baseURL link with
            | some l => [l]
            | none => [],
        none, targetURL⟩ := by
  rw [Main.extract_ok, hv]
  simp only [List.foldl_cons, List.foldl_nil, Main.processLink_eq, hx, Bool.false_eq_true,
    if_false, scannedText, hm, addEmails, ht, hb]
  cases newLink lib targetURL baseURL link <;> rfl

/-- C3: every URL of the link set returned by either copy of
`extractEmailsAndLinks` parses to a host equal to the host of the origin URL, so
a URL with another host is not in the link set and a link that resolves to
another host leaves the link set unchanged; with origin and target
`https://a.com/`, the href `https://b.com/x` adds nothing and the href
`/contact` adds `https://a.com/contact`. -/
theorem origin_filtering (lib : GoLib) (targetURL baseURL : Str) (fetch : FetchOutcome) :
    (∀ l ∈ (Main.extractEmailsAndLinks lib targetURL baseURL fetch).Links,
      SameHost lib baseURL l) ∧
    (∀ r, Extractor.extractEmailsAndLinks lib targetURL baseURL fetch = some r →
      ∀ l ∈ r.Links, SameHost lib baseURL l) ∧
    (∀ l p b, lib.urlParse l = some p → lib.urlParse baseURL = some b → p.Host ≠ b.Host →
      l ∉ (Main.extractEmailsAndLinks lib targetURL baseURL fetch).Links) ∧
    (∀ result link a b bp rp, lib.urlParse link = some a → lib.urlParse targetURL = some b →
      lib.urlParse baseURL = some bp →
      lib.urlParse (lib.urlString (lib.resolveReference b a)) = some rp →
      rp.Host ≠ bp.Host →
      (Main.processLink lib targetURL baseURL result link).Links = result.Links) ∧
    (∀ a b, lib.urlParse (bytes "https://a.com/") = some a →
      lib.urlParse (bytes "https://b.com/x") = some b →
      lib.urlString (lib.resolveReference a b) = bytes "https://b.com/x" →
      b.Host ≠ a.Host →
      (Main.extractEmailsAndLinks lib (bytes "https://a.com/") (bytes "https://a.com/")
        (FetchOutcome.response 200 (bytes "<a href=\"https://b.com/x\">B</a>") none)).Links =
        []) ∧
    (∀ a c r, lib.urlParse (bytes "https://a.com/") = some a →
      lib.urlParse (bytes "/contact") = some c →
      lib.urlString (lib.resolveReference a c) = bytes "https://a.com/contact" →
      lib.urlParse (bytes "https://a.com/contact") = some r →
      r.Host = a.Host →
      (Main.extractEmailsAndLinks lib (bytes "https://a.com/") (bytes "https://a.com/")
        (FetchOutcome.response 200 (bytes "<a href=\"/contact\">Contact</a>") none)).Links =
        [bytes "https://a.com/contact"]) := by
  refine ⟨?_, ?_, ?_, ?_, ?_, ?_⟩
  · intro l hl
    exact Main.sameHost_of_mem_Links lib targetURL baseURL fetch l hl
  · intro r hr l hl
    exact Extractor.ext_sameHost_of_mem_Links lib targetURL baseURL fetch r hr l hl
  · intro l p b hp hb hne hl
    obtain ⟨rp, bp, hrp, hbp, hh⟩ := Main.sameHost_of_mem_Links lib targetURL baseURL fetch l hl
    rw [hp] at hrp
    rw [hb] at hbp
    cases hrp
    cases hbp
    exact hne hh
  · intro result link a b bp rp ha hb hbp hrp hne
    rw [Main.processLink_eq]
    have hn : newLink lib targetURL baseURL link = none := by
      unfold newLink
      by_cases h1 : shouldExclude lib link = true
      · simp only [h1, if_true]
      by_cases h2 : strStartsWith (strToLower lib link) (bytes "mailto:") = true
      · simp only [h1, h2, if_true, if_false, Bool.false_eq_true]
      simp only [h1, h2, Bool.false_eq_true, if_false, ha, hb, hbp, hrp, hne]
    simp only [hn]
  · intro a b ha hb hs hne
    rw [Main.extract_one_link lib (bytes "https://a.com/") (bytes "https://a.com/")
      (bytes "<a href=\"https://b.com/x\">B</a>") (bytes "https://b.com/x") (by decide) rfl rfl
      (by decide) (by decide),
      newLink_of_parses lib (bytes "https://a.com/") (bytes "https://a.com/")
        (bytes "https://b.com/x") b a a b rfl rfl hb ha ha (by rw [hs]; exact hb),
      if_neg hne]
  · intro a c r ha hc hs hr hh
    rw [Main.extract_one_link lib (bytes "https://a.com/") (bytes "https://a.com/")
      (bytes "<a href=\"/contact\">Contact</a>") (bytes "/contact") (by decide) rfl rfl
      (by decide) (by decide),
      newLink_of_parses lib (bytes "https://a.com/") (bytes "https://a.com/")
        (bytes "/contact") c a a r rfl rfl hc ha ha (by rw [hs]; exact hr),
      if_pos hh, hs]

/-- C3 at the library instance of the examples: the two hrefs of the claim. -/
theorem origin_filtering_witness :
    (Main.extractEmailsAndLinks exampleLib (bytes "https://a.com/") (bytes "https://a.com/")
      (FetchOutcome.response 200 (bytes "<a href=\"https://b.com/x\">B</a>") none)).Links =
      [] ∧
    (Main.extractEmailsAndLinks exampleLib (bytes "https://a.com/") (bytes "https://a.com/")
      (FetchOutcome.response 200 (bytes "<a href=\"/contact\">Contact</a>") none)).Links =
      [bytes "https://a.com/contact"] ∧
    bytes "https://b.com/x" ∉
      (Main.extractEmailsAndLinks exampleLib (bytes "https://a.com/") (bytes "https://a.com/")
        (FetchOutcome.response 200
          (bytes "<a href=\"https://b.com/x\">B</a> <a href=\"/contact\">Contact</a>")
          none)).Links ∧
    (Main.processLink exampleLib (bytes "https://a.com/") (bytes "https://a.com/")
        ⟨[], [], none, bytes "https://a.com/"⟩ (bytes "https://b.com/x")).Links = [] ∧
    SameHost exampleLib (bytes "https://a.com/") (bytes "https://a.com/contact") :=
  have h := origin_filtering exampleLib (bytes "https://a.com/") (bytes "https://a.com/")
    (FetchOutcome.response 200
      (bytes "<a href=\"https://b.com/x\">B</a> <a href=\"/contact\">Contact</a>") none)
  ⟨h.2.2.2.2.1 ⟨bytes "https", [], bytes "a.com", bytes "/", [], []⟩
      ⟨bytes "https", [], bytes "b.com", bytes "/x", [], []⟩
      (by decide) (by decide) (by decide) (by decide),
    h.2.2.2.2.2 ⟨bytes "https", [], bytes "a.com", bytes "/", [], []⟩
      ⟨[], [], [], bytes "/contact", [], []⟩
      ⟨bytes "https", [], bytes "a.com", bytes "/contact", [], []⟩
      (by decide) (by decide) (by decide) (by decide) (by decide),
    h.2.2.1 (bytes "https://b.com/x") ⟨bytes "https", [], bytes "b.com", bytes "/x", [], []⟩
      ⟨bytes "https", [], bytes "a.com", bytes "/", [], []⟩
      (by decide) (by decide) (by decide),
    h.2.2.2.1 ⟨[], [], none, bytes "https://a.com/"⟩ (bytes "https://b.com/x")
      ⟨bytes "https", [], bytes "b.com", bytes "/x", [], []⟩
      ⟨bytes "https", [], bytes "a.com", bytes "/", [], []⟩
      ⟨bytes "https", [], bytes "a.com", bytes "/", [], []⟩
      ⟨bytes "https", [], bytes "b.com", bytes "/x", [], []⟩
      (by decide) (by decide) (by decide) (by decide) (by decide),
    h.1 (bytes "https://a.com/contact") (by decide)⟩

/-! ### The merge -/

theorem setAdd_cons_of_ne (k e : Str) (m : List Str) (h : k ≠ e) :
    setAdd (k :: m) e = k :: setAdd m e := by
  unfold setAdd
  by_cases he : e ∈ m
  · simp [he]
  · have : e ∉ k :: m := by
      intro h2
      rcases List.mem_cons.1 h2 with h3 | h3
      · exact h h3.symm
      · exact he h3
    simp [he, this]

theorem appendSource_keys (f : List (Str × List Str)) (e url : Str) :
    (appendSource f e url).map Prod.fst = setAdd (f.map Prod.fst) e := by
  induction f with
  | nil => rfl
  | cons p rest ih =>
    obtain ⟨k, v⟩ := p
    by_cases hk : k = e
    · subst hk
      simp [appendSource, setAdd]
    · simp only [appendSource, hk, if_false, List.map_cons, ih]
      exact (setAdd_cons_of_ne k e _ hk).symm

theorem sourcesOf_appendSource (f : List (Str × List Str)) (e url x : Str) :
    sourcesOf (appendSource f e url) x =
      if x = e then sourcesOf f x ++ [url] else sourcesOf f x := by
  induction f with
  | nil =>
    by_cases hx : x = e
    · subst hx; simp [appendSource, sourcesOf]
    · have hx2 : ¬ e = x := fun h => hx h.symm
      simp [appendSource, sourcesOf, hx, hx2]
  | cons p rest ih =>
    obtain ⟨k, v⟩ := p
    by_cases hk : k = e
    · subst hk
      by_cases hx : x = k
      · subst hx; simp [appendSource, sourcesOf]
      · have hx2 : ¬ k = x := fun h => hx h.symm
        simp [appendSource, sourcesOf, hx, hx2]
    · by_cases hx : x = e
      · subst hx
        simp only [appendSource, hk, if_false, sourcesOf, ih, if_true]
      · simp only [appendSource, hk, if_false, sourcesOf, ih, hx]

/-- The effect of merging one page: the key list gains the emails of the page,
and the source list of `x` gains the page URL once per occurrence of `x`. -/
theorem mergeEmails_spec (emails : List Str) (r : Report) (url : Str)
    (hk : r.foundEmails.map Prod.fst = r.allEmails) (hn : r.allEmails.Nodup) :
    (mergeEmails r emails url).foundEmails.map Prod.fst = (mergeEmails r emails url).allEmails ∧
    (mergeEmails r emails url).allEmails.Nodup ∧
    (∀ x, x ∈ (mergeEmails r emails url).allEmails ↔ x ∈ r.allEmails ∨ x ∈ emails) ∧
    (∀ x, sourcesOf (mergeEmails r emails url).foundEmails x =
      sourcesOf r.foundEmails x ++ occurrences emails x url) := by
  induction emails generalizing r with
  | nil => simp [mergeEmails, occurrences, hk, hn]
  | cons e es ih =>
    have hk1 : (record url r e).foundEmails.map Prod.fst = (record url r e).allEmails := by
      simp only [record, appendSource_keys, hk]
    have hn1 : (record url r e).allEmails.Nodup := nodup_setAdd _ _ hn
    obtain ⟨h1, h2, h3, h4⟩ := ih (record url r e) hk1 hn1
    have hm : mergeEmails r (e :: es) url = mergeEmails (record url r e) es url := rfl
    rw [hm]
    refine ⟨h1, h2, ?_, ?_⟩
    · intro x
      rw [h3]
      simp only [record, mem_setAdd, List.mem_cons]
      tauto
    · intro x
      rw [h4]
      simp only [record, sourcesOf_appendSource]
      by_cases hx : x = e
      · subst hx
        simp [occurrences]
      · have hx2 : ¬ e = x := fun h => hx h.symm
        simp [hx, occurrences, hx2]

/-- The source list of every email after the merge of `processDomain`. -/
theorem collect_spec (domainURL : Str) (mainResult : ExtractionResult)
    (results : List ExtractionResult) :
    (collect domainURL mainResult results).foundEmails.map Prod.fst =
      (collect domainURL mainResult results).allEmails ∧
    (collect domainURL mainResult results).allEmails.Nodup ∧
    (∀ x, x ∈ (collect domainURL mainResult results).allEmails ↔
      x ∈ mainResult.Emails ∨ ∃ r ∈ results, x ∈ r.Emails) ∧
    (∀ x, sourcesOf (collect domainURL mainResult results).foundEmails x =
      occurrences mainResult.Emails x domainURL ++
        results.flatMap (fun r => occurrences r.Emails x r.URL)) := by
  unfold collect
  have h0 := mergeEmails_spec mainResult.Emails ⟨[], []⟩ domainURL rfl List.nodup_nil
  generalize mergeEmails ⟨[], []⟩ mainResult.Emails domainURL = r0 at h0
  obtain ⟨a1, a2, a3, a4⟩ := h0
  have key : ∀ (rs : List ExtractionResult) (r : Report),
      r.foundEmails.map Prod.fst = r.allEmails → r.allEmails.Nodup →
      (rs.foldl (fun r result => mergeEmails r result.Emails result.URL) r).foundEmails.map
          Prod.fst =
        (rs.foldl (fun r result => mergeEmails r result.Emails result.URL) r).allEmails ∧
      (rs.foldl (fun r result => mergeEmails r result.Emails result.URL) r).allEmails.Nodup ∧
      (∀ x, x ∈ (rs.foldl (fun r result => mergeEmails r result.Emails result.URL)
          r).allEmails ↔ x ∈ r.allEmails ∨ ∃ q ∈ rs, x ∈ q.Emails) ∧
      (∀ x, sourcesOf (rs.foldl (fun r result => mergeEmails r result.Emails result.URL)
          r).foundEmails x =
        sourcesOf r.foundEmails x ++
          rs.flatMap (fun q => occurrences q.Emails x q.URL)) := by
    intro rs
    induction rs with
    | nil => intro r hk hn; simp [hk, hn]
    | cons q qs ih =>
      intro r hk hn
      obtain ⟨b1, b2, b3, b4⟩ := mergeEmails_spec q.Emails r q.URL hk hn
      obtain ⟨c1, c2, c3, c4⟩ := ih (mergeEmails r q.Emails q.URL) b1 b2
      rw [List.foldl_cons]
      refine ⟨c1, c2, ?_, ?_⟩
      · intro x
        rw [c3, b3]
        simp only [List.mem_cons, exists_eq_or_imp, or_assoc]
      · intro x
        rw [c4, b4]
        simp [List.flatMap, List.append_assoc]
  obtain ⟨d1, d2, d3, d4⟩ := key results r0 a1 a2
  refine ⟨d1, d2, ?_, ?_⟩
  · intro x
    rw [d3, a3]
    simp
  · intro x
    rw [d4, a4]
    simp [sourcesOf]

theorem occurrences_of_mem (l : List Str) (x url : Str) (h : x ∈ l) :
    ∃ rest, occurrences l x url = url :: rest := by
  induction l with
  | nil => cases h
  | cons a l ih =>
    by_cases ha : a = x
    · exact ⟨occurrences l x url, by simp [occurrences, ha]⟩
    · rcases List.mem_cons.1 h with h1 | h1
      · exact absurd h1.symm ha
      · obtain ⟨rest, hr⟩ := ih h1
        exact ⟨rest, by simpa [occurrences, ha] using hr⟩

theorem occurrences_of_nodup (l : List Str) (x url : Str) (h : l.Nodup) :
    occurrences l x url = if x ∈ l then [url] else [] := by
  induction l with
  | nil => rfl
  | cons a l ih =>
    have hn := List.nodup_cons.1 h
    by_cases ha : a = x
    · subst ha
      have h0 : occurrences l a url = [] := by rw [ih hn.2, if_neg hn.1]
      simp only [occurrences] at h0
      simp [occurrences, h0]
    · have hx : x ∈ a :: l ↔ x ∈ l := by
        simp only [List.mem_cons]
        constructor
        · rintro (h1 | h1)
          · exact absurd h1.symm ha
          · exact h1
        · exact Or.inr
      have h1 := ih hn.2
      simp only [occurrences] at h1
      simp only [occurrences, List.filter_cons, ha, decide_False, Bool.false_eq_true, if_false,
        h1, hx]

theorem flatMap_replicate_of_nodup (results : List ExtractionResult) (x : Str)
    (hr : ∀ r ∈ results, r.Emails.Nodup) :
    results.flatMap (fun r => occurrences r.Emails x r.URL) =
      (results.filter (fun r => decide (x ∈ r.Emails))).map ExtractionResult.URL := by
  induction results with
  | nil => rfl
  | cons q qs ih =>
    have hq := hr q (List.mem_cons_self _ _)
    have ih2 := ih (fun r h => hr r (List.mem_cons_of_mem _ h))
    simp only [List.flatMap_cons, ih2, occurrences_of_nodup _ x q.URL hq, List.filter_cons]
    by_cases hx : x ∈ q.Emails
    · simp [hx]
    · simp [hx]

theorem Main.processDomain_eq (lib : GoLib) (seedFetch : FetchOutcome)
    (net : Str → FetchOutcome) (domainURL : Str) (arrival : List Str) :
    Main.processDomain lib seedFetch net domainURL arrival =
      collect domainURL (Main.extractEmailsAndLinks lib domainURL domainURL seedFetch)
        (if (Main.extractEmailsAndLinks lib domainURL domainURL seedFetch).Links.length > 0 then
          arrival.map (fun l => Main.extractEmailsAndLinks lib l domainURL (net l))
        else []) := by
  unfold Main.processDomain
  by_cases h : (Main.extractEmailsAndLinks lib domainURL domainURL seedFetch).Links.length > 0
  · simp only [h, if_true]
  · simp only [h, if_false]

/-- C5: after the merge of `processDomain`, for every seed result and every
list of frontier results in any order, the keys of the report are the union of
the email sets of the seed page and of the frontier pages, each key once (in
`allEmails` and in `foundEmails` alike); an email of the seed page has the seed
URL as the first entry of its source list; and an email of a frontier page has
that page's URL in its source list.  `processDomain` of `emailhunter.go` is
this merge applied to its extraction results. -/
theorem source_attribution (domainURL : Str) (mainResult : ExtractionResult)
    (results : List ExtractionResult) :
    (collect domainURL mainResult results).allEmails.Nodup ∧
    (collect domainURL mainResult results).foundEmails.map Prod.fst =
      (collect domainURL mainResult results).allEmails ∧
    (∀ x, x ∈ (collect domainURL mainResult results).allEmails ↔
      x ∈ mainResult.Emails ∨ ∃ r ∈ results, x ∈ r.Emails) ∧
    (∀ x ∈ mainResult.Emails,
      (sourcesOf (collect domainURL mainResult results).foundEmails x).head? =
        some domainURL) ∧
    (∀ r ∈ results, ∀ x ∈ r.Emails,
      r.URL ∈ sourcesOf (collect domainURL mainResult results).foundEmails x) ∧
    (∀ lib seedFetch net arrival,
      Main.processDomain lib seedFetch net domainURL arrival =
        collect domainURL (Main.extractEmailsAndLinks lib domainURL domainURL seedFetch)
          (if (Main.extractEmailsAndLinks lib domainURL domainURL seedFetch).Links.length > 0
            then arrival.map (fun l => Main.extractEmailsAndLinks lib l domainURL (net l))
            else [])) := by
  obtain ⟨h1, h2, h3, h4⟩ := collect_spec domainURL mainResult results
  refine ⟨h2, h1, h3, ?_, ?_, ?_⟩
  · intro x hx
    rw [h4]
    obtain ⟨rest, hr⟩ := occurrences_of_mem mainResult.Emails x domainURL hx
    rw [hr]
    rfl
  · intro r hr x hx
    rw [h4]
    apply List.mem_append_right
    rw [List.mem_flatMap]
    refine ⟨r, hr, ?_⟩
    obtain ⟨rest, hr2⟩ := occurrences_of_mem r.Emails x r.URL hx
    rw [hr2]
    exact List.mem_cons_self _ _
  · intro lib seedFetch net arrival
    exact Main.processDomain_eq lib seedFetch net domainURL arrival

/-- C5 at an email found on the seed page and on one of two frontier pages. -/
theorem source_attribution_witness :
    (sourcesOf (collect (bytes "https://a.com/")
        ⟨[bytes "bob@a.com"], [], none, bytes "https://a.com/"⟩
        [⟨[bytes "amy@a.com"], [], none, bytes "https://a.com/x"⟩,
         ⟨[bytes "bob@a.com"], [], none, bytes "https://a.com/y"⟩]).foundEmails
      (bytes "bob@a.com")).head? = some (bytes "https://a.com/") ∧
    bytes "https://a.com/y" ∈
      sourcesOf (collect (bytes "https://a.com/")
        ⟨[bytes "bob@a.com"], [], none, bytes "https://a.com/"⟩
        [⟨[bytes "amy@a.com"], [], none, bytes "https://a.com/x"⟩,
         ⟨[bytes "bob@a.com"], [], none, bytes "https://a.com/y"⟩]).foundEmails
      (bytes "bob@a.com") :=
  have h := source_attribution (bytes "https://a.com/")
    ⟨[bytes "bob@a.com"], [], none, bytes "https://a.com/"⟩
    [⟨[bytes "amy@a.com"], [], none, bytes "https://a.com/x"⟩,
     ⟨[bytes "bob@a.com"], [], none, bytes "https://a.com/y"⟩]
  ⟨h.2.2.2.1 (bytes "bob@a.com") (by decide),
    h.2.2.2.2.1 ⟨[bytes "bob@a.com"], [], none, bytes "https://a.com/y"⟩ (by decide)
      (bytes "bob@a.com") (by decide)⟩

/-- C6, as stated, fails: the seed page `https://a.com/` links to itself, so
its link set is the seed URL, the page is fetched again as a frontier page, and
the source list of `bob@a.com` holds the seed URL twice in a row. -/
theorem self_link_repeats_seed :
    (Main.extractEmailsAndLinks exampleLib (bytes "https://a.com/") (bytes "https://a.com/")
      (FetchOutcome.response 200 (bytes "<a href=\"/\">Home</a> bob@a.com") none)).Links =
      [bytes "https://a.com/"] ∧
    sourcesOf (Main.processDomain exampleLib
        (FetchOutcome.response 200 (bytes "<a href=\"/\">Home</a> bob@a.com") none)
        (fun _ => FetchOutcome.response 200 (bytes "<a href=\"/\">Home</a> bob@a.com") none)
        (bytes "https://a.com/") [bytes "https://a.com/"]).foundEmails (bytes "bob@a.com") =
      [bytes "https://a.com/", bytes "https://a.com/"] := by
  decide

theorem collect_sources_of_nodup (domainURL : Str) (mainResult : ExtractionResult)
    (results : List ExtractionResult) (hm : mainResult.Emails.Nodup)
    (hr : ∀ r ∈ results, r.Emails.Nodup)
    (hu : (results.map ExtractionResult.URL).Nodup) (x : Str)
    (hx : x ∈ (collect domainURL mainResult results).allEmails) :
    sourcesOf (collect domainURL mainResult results).foundEmails x ≠ [] ∧
    sourcesOf (collect domainURL mainResult results).foundEmails x =
      (if x ∈ mainResult.Emails then [domainURL] else []) ++
        (results.filter (fun r => decide (x ∈ r.Emails))).map ExtractionResult.URL ∧
    ((results.filter (fun r => decide (x ∈ r.Emails))).map ExtractionResult.URL).Nodup ∧
    (domainURL ∉ results.map ExtractionResult.URL →
      (sourcesOf (collect domainURL mainResult results).foundEmails x).Nodup) := by
  obtain ⟨_, _, h3, h4⟩ := collect_spec domainURL mainResult results
  have hform : sourcesOf (collect domainURL mainResult results).foundEmails x =
      (if x ∈ mainResult.Emails then [domainURL] else []) ++
        (results.filter (fun r => decide (x ∈ r.Emails))).map ExtractionResult.URL := by
    rw [h4, occurrences_of_nodup _ x domainURL hm, flatMap_replicate_of_nodup results x hr]
  have hsub : ((results.filter (fun r => decide (x ∈ r.Emails))).map
      ExtractionResult.URL).Sublist (results.map ExtractionResult.URL) :=
    List.Sublist.map _ (List.filter_sublist _)
  have htail : ((results.filter (fun r => decide (x ∈ r.Emails))).map
      ExtractionResult.URL).Nodup := List.Nodup.sublist hsub hu
  refine ⟨?_, hform, htail, ?_⟩
  · rw [hform]
    rcases (h3 x).1 hx with h | ⟨r, hrm, hxr⟩
    · simp [h]
    · intro hnil
      have hmem : r.URL ∈ (results.filter (fun r => decide (x ∈ r.Emails))).map
          ExtractionResult.URL :=
        List.mem_map.2 ⟨r, List.mem_filter.2 ⟨hrm, by simpa using hxr⟩, rfl⟩
      have : r.URL ∈ ([] : List Str) := by
        rw [← hnil]
        exact List.mem_append_right _ hmem
      cases this
  · intro hd
    rw [hform]
    have hd2 : domainURL ∉ (results.filter (fun r => decide (x ∈ r.Emails))).map
        ExtractionResult.URL := fun h => hd (hsub.subset h)
    by_cases h : x ∈ mainResult.Emails
    · simp only [h, if_true, List.singleton_append]
      exact List.nodup_cons.2 ⟨hd2, htail⟩
    · simp only [h, if_false, List.nil_append]
      exact htail

/-- C6, amended: every email key of the report has a non-empty source list, which
is the seed URL (when the seed page has the email) followed by the URLs of the
frontier pages that have it, in the order of the merge, each frontier URL once;
a URL is repeated only when the seed URL is itself a frontier URL.  This holds
for the merge on any results whose email sets and URLs are duplicate-free, and
for `processDomain` of `emailhunter.go` on any arrival order of the link set. -/
theorem source_lists (domainURL : Str) :
    (∀ mainResult results, mainResult.Emails.Nodup →
      (∀ r ∈ results, r.Emails.Nodup) →
      (results.map ExtractionResult.URL).Nodup →
      ∀ x ∈ (collect domainURL mainResult results).allEmails,
        sourcesOf (collect domainURL mainResult results).foundEmails x ≠ [] ∧
        sourcesOf (collect domainURL mainResult results).foundEmails x =
          (if x ∈ mainResult.Emails then [domainURL] else []) ++
            (results.filter (fun r => decide (x ∈ r.Emails))).map ExtractionResult.URL ∧
        ((results.filter (fun r => decide (x ∈ r.Emails))).map ExtractionResult.URL).Nodup ∧
        (domainURL ∉ results.map ExtractionResult.URL →
          (sourcesOf (collect domainURL mainResult results).foundEmails x).Nodup)) ∧
    (∀ lib seedFetch net arrival,
      arrival.Perm (Main.extractEmailsAndLinks lib domainURL domainURL seedFetch).Links →
      ∀ x ∈ (Main.processDomain lib seedFetch net domainURL arrival).allEmails,
        sourcesOf (Main.processDomain lib seedFetch net domainURL arrival).foundEmails x ≠ [] ∧
        sourcesOf (Main.processDomain lib seedFetch net domainURL arrival).foundEmails x =
          (if x ∈ (Main.extractEmailsAndLinks lib domainURL domainURL seedFetch).Emails
            then [domainURL] else []) ++
            arrival.filter (fun l =>
              decide (x ∈ (Main.extractEmailsAndLinks lib l domainURL (net l)).Emails)) ∧
        (arrival.filter (fun l =>
          decide (x ∈ (Main.extractEmailsAndLinks lib l domainURL (net l)).Emails))).Nodup ∧
        (domainURL ∉ arrival →
          (sourcesOf (Main.processDomain lib seedFetch net domainURL arrival).foundEmails
            x).Nodup)) := by
  refine ⟨?_, ?_⟩
  · intro mainResult results hm hr hu x hx
    exact collect_sources_of_nodup domainURL mainResult results hm hr hu x hx
  · intro lib seedFetch net arrival hperm x hx
    have hres : (if (Main.extractEmailsAndLinks lib domainURL domainURL seedFetch).Links.length
          > 0 then arrival.map (fun l => Main.extractEmailsAndLinks lib l domainURL (net l))
        else []) = arrival.map (fun l => Main.extractEmailsAndLinks lib l domainURL (net l)) := by
      by_cases h : (Main.extractEmailsAndLinks lib domainURL domainURL seedFetch).Links.length
          > 0
      · simp only [h, if_true]
      · simp only [h, if_false]
        have hl : (Main.extractEmailsAndLinks lib domainURL domainURL seedFetch).Links = [] :=
          List.length_eq_zero.1 (by omega)
        rw [hl] at hperm
        rw [List.Perm.eq_nil hperm]
        rfl
    rw [Main.processDomain_eq, hres] at hx ⊢
    have hurl : (arrival.map (fun l => Main.extractEmailsAndLinks lib l domainURL (net l))).map
        ExtractionResult.URL = arrival := by
      rw [List.map_map]
      have : (ExtractionResult.URL ∘
          fun l => Main.extractEmailsAndLinks lib l domainURL (net l)) = id := by
        funext l
        exact Main.extract_URL lib l domainURL (net l)
      rw [this, List.map_id]
    have hnd : arrival.Nodup :=
      (List.Perm.nodup_iff hperm).2 (Main.extract_nodup lib domainURL domainURL seedFetch).2
    have hfilter : ((arrival.map
        (fun l => Main.extractEmailsAndLinks lib l domainURL (net l))).filter
          (fun r => decide (x ∈ r.Emails))).map ExtractionResult.URL =
        arrival.filter (fun l =>
          decide (x ∈ (Main.extractEmailsAndLinks lib l domainURL (net l)).Emails)) := by
      rw [List.filter_map, List.map_map]
      have : (ExtractionResult.URL ∘
          fun l => Main.extractEmailsAndLinks lib l domainURL (net l)) = id := by
        funext l
        exact Main.extract_URL lib l domainURL (net l)
      rw [this, List.map_id]
      rfl
    have h := collect_sources_of_nodup domainURL
      (Main.extractEmailsAndLinks lib domainURL domainURL seedFetch)
      (arrival.map (fun l => Main.extractEmailsAndLinks lib l domainURL (net l)))
      (Main.extract_nodup lib domainURL domainURL seedFetch).1
      (by
        intro r hr
        obtain ⟨l, _, rfl⟩ := List.mem_map.1 hr
        exact (Main.extract_nodup lib l domainURL (net l)).1)
      (by rw [hurl]; exact hnd) x hx
    rw [hfilter, hurl] at h
    exact h

/-- The amended C6 at the seed page that links to itself and to `/x`. -/
theorem source_lists_witness :
    sourcesOf (Main.processDomain exampleLib
        (FetchOutcome.response 200
          (bytes "<a href=\"/\">Home</a> <a href=\"/x\">X</a> bob@a.com") none)
        (fun _ => FetchOutcome.response 200 (bytes "bob@a.com") none)
        (bytes "https://a.com/") [bytes "https://a.com/x", bytes "https://a.com/"]).foundEmails
      (bytes "bob@a.com") ≠ [] ∧
    sourcesOf (collect (bytes "https://a.com/")
        ⟨[bytes "bob@a.com"], [], none, bytes "https://a.com/"⟩
        [⟨[bytes "bob@a.com"], [], none, bytes "https://a.com/y"⟩]).foundEmails
      (bytes "bob@a.com") ≠ [] :=
  have h := source_lists (bytes "https://a.com/")
  ⟨(h.2 exampleLib
      (FetchOutcome.response 200
        (bytes "<a href=\"/\">Home</a> <a href=\"/x\">X</a> bob@a.com") none)
      (fun _ => FetchOutcome.response 200 (bytes "bob@a.com") none)
      [bytes "https://a.com/x", bytes "https://a.com/"]
      (by
        have hl : (Main.extractEmailsAndLinks exampleLib (bytes "https://a.com/")
            (bytes "https://a.com/")
            (FetchOutcome.response 200
              (bytes "<a href=\"/\">Home</a> <a href=\"/x\">X</a> bob@a.com") none)).Links =
            [bytes "https://a.com/", bytes "https://a.com/x"] := by decide
        rw [hl]
        exact List.Perm.swap _ _ _)
      (bytes "bob@a.com") (by decide)).1,
    (h.1 ⟨[bytes "bob@a.com"], [], none, bytes "https://a.com/"⟩
      [⟨[bytes "bob@a.com"], [], none, bytes "https://a.com/y"⟩]
      (by decide) (by decide) (by decide) (bytes "bob@a.com") (by decide)).1⟩

/-- C8: for a href value that is not excluded and whose lowercased form starts
with `mailto:`, the loop body of both copies leaves the link set unchanged and
puts every valid email token of the link without its first 7 bytes into the
email set, so these tokens are in the email set of the page.  For the seed body
of the claim fetched at `https://site.com/` the result is the email
`bob@site.com` and the link `https://site.com/about`, and merging an `/about`
page whose email set is `carol@site.com` gives a report with two emails,
`bob@site.com` under the seed URL and `carol@site.com` under the `/about` URL. -/
theorem mailto_handling (lib : GoLib) (targetURL baseURL : Str) :
    (∀ result link, shouldExclude lib link = false →
      strStartsWith (strToLower lib link) (bytes "mailto:") = true →
      (Main.processLink lib targetURL baseURL result link).Links = result.Links ∧
      (∀ e ∈ FindAllString emailRegex (link.drop 7), Main.isValidEmail lib e = true →
        e ∈ (Main.processLink lib targetURL baseURL result link).Emails) ∧
      Extractor.processLink lib targetURL baseURL result link =
        some (Main.processLink lib targetURL baseURL result link)) ∧
    (∀ body link, link ∈ hrefValues body → shouldExclude lib link = false →
      strStartsWith (strToLower lib link) (bytes "mailto:") = true →
      ∀ e ∈ FindAllString emailRegex (link.drop 7), Main.isValidEmail lib e = true →
        e ∈ (Main.extractEmailsAndLinks lib targetURL baseURL
              (FetchOutcome.response 200 body none)).Emails) ∧
    (∀ a b r, lib.urlParse (bytes "/about") = some a →
      lib.urlParse (bytes "https://site.com/") = some b →
      lib.urlString (lib.resolveReference b a) = bytes "https://site.com/about" →
      lib.urlParse (bytes "https://site.com/about") = some r →
      r.Host = b.Host →
      Main.extractEmailsAndLinks lib (bytes "https://site.com/") (bytes "https://site.com/")
          (FetchOutcome.response 200
            (bytes "<a href=\"mailto:bob@site.com\">Bob</a> <a href=\"/about\">About</a>")
            none) =
        ⟨[bytes "bob@site.com"], [bytes "https://site.com/about"], none,
          bytes "https://site.com/"⟩ ∧
      Extractor.extractEmailsAndLinks lib (bytes "https://site.com/")
          (bytes "https://site.com/")
          (FetchOutcome.response 200
            (bytes "<a href=\"mailto:bob@site.com\">Bob</a> <a href=\"/about\">About</a>")
            none) =
        some ⟨[bytes "bob@site.com"], [bytes "https://site.com/about"], none,
          bytes "https://site.com/"⟩ ∧
      ∀ net,
        (Main.extractEmailsAndLinks lib (bytes "https://site.com/about")
          (bytes "https://site.com/") (net (bytes "https://site.com/about"))).Emails =
          [bytes "carol@site.com"] →
        Main.processDomain lib
            (FetchOutcome.response 200
              (bytes "<a href=\"mailto:bob@site.com\">Bob</a> <a href=\"/about\">About</a>")
              none)
            net (bytes "https://site.com/") [bytes "https://site.com/about"] =
          ⟨[bytes "bob@site.com", bytes "carol@site.com"],
            [(bytes "bob@site.com", [bytes "https://site.com/"]),
             (bytes "carol@site.com", [bytes "https://site.com/about"])]⟩) := by
  have hlink : ∀ result link, shouldExclude lib link = false →
      strStartsWith (strToLower lib link) (bytes "mailto:") = true →
      (Main.processLink lib targetURL baseURL result link).Links = result.Links ∧
      (∀ e ∈ FindAllString emailRegex (link.drop 7), Main.isValidEmail lib e = true →
        e ∈ (Main.processLink lib targetURL baseURL result link).Emails) ∧
      Extractor.processLink lib targetURL baseURL result link =
        some (Main.processLink lib targetURL baseURL result link) := by
    intro result link hx hm
    have hn : newLink lib targetURL baseURL link = none := by
      unfold newLink
      simp only [hx, hm, Bool.false_eq_true, if_false, if_true]
    refine ⟨?_, ?_, ?_⟩
    · rw [Main.processLink_eq]
      simp only [hn]
    · intro e he hv
      rw [Main.processLink_Emails]
      simp only [hx, Bool.false_eq_true, if_false, scannedText, hm, if_true, mem_addEmails]
      exact Or.inr ⟨he, ne_nil_of_isValidEmail lib e hv, hv⟩
    · apply Extractor.processLink_of_parses
      intro _ h2
      rw [hm] at h2
      cases h2
  refine ⟨hlink, ?_, ?_⟩
  · intro body link hl hx hm e he hv
    rw [Main.mem_extract_Emails]
    refine ⟨⟨ne_nil_of_isValidEmail lib e hv, hv⟩, Or.inr ⟨link, hl, hx, ?_⟩⟩
    simp only [scannedText, hm, if_true]
    exact he
  · intro a b r ha hb hs hr hh
    have hv : hrefValues
        (bytes "<a href=\"mailto:bob@site.com\">Bob</a> <a href=\"/about\">About</a>") =
        [bytes "mailto:bob@site.com", bytes "/about"] := by decide
    have n1 : newLink lib (bytes "https://site.com/") (bytes "https://site.com/")
        (bytes "mailto:bob@site.com") = none := rfl
    have n2 : newLink lib (bytes "https://site.com/") (bytes "https://site.com/")
        (bytes "/about") = some (bytes "https://site.com/about") := by
      rw [newLink_of_parses lib (bytes "https://site.com/") (bytes "https://site.com/")
        (bytes "/about") a b b r rfl rfl ha hb hb (by rw [hs]; exact hr), hs, if_pos hh]
    have hmain : Main.extractEmailsAndLinks lib (bytes "https://site.com/")
        (bytes "https://site.com/")
        (FetchOutcome.response 200
          (bytes "<a href=\"mailto:bob@site.com\">Bob</a> <a href=\"/about\">About</a>")
          none) =
        ⟨[bytes "bob@site.com"], [bytes "https://site.com/about"], none,
          bytes "https://site.com/"⟩ := by
      rw [Main.extract_ok, hv]
      simp only [List.foldl_cons, List.foldl_nil, Main.processLink_eq, n1, n2]
      rfl
    refine ⟨hmain, ?_, ?_⟩
    · rw [Extractor.extract_of_parses, hmain]
      intro link hl
      rw [hv] at hl
      simp only [List.mem_cons, List.mem_singleton, List.not_mem_nil, or_false] at hl
      rcases hl with hl | hl
      · subst hl
        intro _ h2
        have h3 : strStartsWith (strToLower lib (bytes "mailto:bob@site.com"))
            (bytes "mailto:") = true := rfl
        rw [h3] at h2
        cases h2
      · subst hl
        intro _ _ a2 ha2
        rw [ha] at ha2
        cases ha2
        exact ⟨b, b, r, hb, hb, by rw [hs]; exact hr⟩
    · intro net hc
      rw [Main.processDomain_eq, hmain]
      simp only [List.length_cons, List.length_nil, gt_iff_lt, Nat.zero_lt_succ, if_true,
        List.map_cons, List.map_nil, collect, List.foldl_cons, List.foldl_nil, hc,
        Main.extract_URL]
      rfl

/-- C8 at the library instance of the examples, with the `/about` page
`<p>carol@site.com</p>`. -/
theorem mailto_handling_witness :
    (Main.processLink exampleLib (bytes "https://site.com/") (bytes "https://site.com/")
        ⟨[], [], none, bytes "https://site.com/"⟩ (bytes "MailTo:bob@site.com")).Links = [] ∧
    bytes "bob@site.com" ∈
      (Main.processLink exampleLib (bytes "https://site.com/") (bytes "https://site.com/")
        ⟨[], [], none, bytes "https://site.com/"⟩ (bytes "MailTo:bob@site.com")).Emails ∧
    bytes "bob@site.com" ∈
      (Main.extractEmailsAndLinks exampleLib (bytes "https://site.com/")
        (bytes "https://site.com/")
        (FetchOutcome.response 200 (bytes "<a href='MailTo:bob@site.com'>Bob</a>")
          none)).Emails ∧
    Main.processDomain exampleLib
        (FetchOutcome.response 200
          (bytes "<a href=\"mailto:bob@site.com\">Bob</a> <a href=\"/about\">About</a>") none)
        (fun _ => FetchOutcome.response 200 (bytes "<p>carol@site.com</p>") none)
        (bytes "https://site.com/") [bytes "https://site.com/about"] =
      ⟨[bytes "bob@site.com", bytes "carol@site.com"],
        [(bytes "bob@site.com", [bytes "https://site.com/"]),
         (bytes "carol@site.com", [bytes "https://site.com/about"])]⟩ :=
  have h := mailto_handling exampleLib (bytes "https://site.com/") (bytes "https://site.com/")
  ⟨(h.1 ⟨[], [], none, bytes "https://site.com/"⟩ (bytes "MailTo:bob@site.com")
      (by decide) (by decide)).1,
    (h.1 ⟨[], [], none, bytes "https://site.com/"⟩ (bytes "MailTo:bob@site.com")
      (by decide) (by decide)).2.1 (bytes "bob@site.com") (by decide) (by decide),
    h.2.1 (bytes "<a href='MailTo:bob@site.com'>Bob</a>") (bytes "MailTo:bob@site.com")
      (by decide) (by decide) (by decide) (bytes "bob@site.com") (by decide) (by decide),
    (h.2.2 ⟨[], [], [], bytes "/about", [], []⟩
      ⟨bytes "https", [], bytes "site.com", bytes "/", [], []⟩
      ⟨bytes "https", [], bytes "site.com", bytes "/about", [], []⟩
      (by decide) (by decide) (by decide) (by decide) (by decide)).2.2
      (fun _ => FetchOutcome.response 200 (bytes "<p>carol@site.com</p>") none)
      (by decide)⟩

/-! ### The patterns of the source consume at least one byte -/

theorem matchMany_stop_ge (c : Cls) (k : Option Nat → List Nat → Nat → Option MatchEnd)
    (hk : ∀ prev s pos m, k prev s pos = some m → pos ≤ m.stop)
    (prev : Option Nat) (s : List Nat) (pos : Nat) (m : MatchEnd)
    (h : matchMany c k prev s pos = some m) : pos ≤ m.stop := by
  induction s generalizing prev pos with
  | nil => exact hk prev [] pos m h
  | cons x xs ih =>
    unfold matchMany at h
    by_cases hc : c.mem x = true
    · simp only [hc, if_true] at h
      cases hr : matchMany c k (some x) xs (pos + 1) with
      | none =>
        rw [hr] at h
        exact hk prev (x :: xs) pos m h
      | some r =>
        rw [hr] at h
        cases h
        have := ih (some x) (pos + 1) hr
        omega
    · simp only [hc, if_false, Bool.false_eq_true] at h
      exact hk prev (x :: xs) pos m h

theorem matchItems_stop_ge (items : List Item) (cap : Nat × Nat) (prev : Option Nat)
    (s : List Nat) (pos : Nat) (m : MatchEnd)
    (h : matchItems items cap prev s pos = some m) : pos ≤ m.stop := by
  induction items generalizing cap prev s pos m with
  | nil =>
    simp only [matchItems, Option.some.injEq] at h
    rw [← h]
  | cons it r ih =>
    cases it with
    | one c =>
      cases s with
      | nil => simp [matchItems] at h
      | cons x xs =>
        simp only [matchItems] at h
        by_cases hc : c.mem x = true
        · simp only [hc, if_true] at h
          have := ih cap (some x) xs (pos + 1) m h
          omega
        · simp [hc] at h
    | many c =>
      simp only [matchItems] at h
      exact matchMany_stop_ge c (matchItems r cap) (fun p s2 q m2 h2 => ih cap p s2 q m2 h2)
        prev s pos m h
    | wordB =>
      simp only [matchItems] at h
      by_cases hb : (isWordAt prev != isWordAt s.head?) = true
      · simp only [hb, if_true] at h
        exact ih cap prev s pos m h
      · simp [hb] at h
    | capOpen =>
      simp only [matchItems] at h
      exact ih _ prev s pos m h
    | capClose =>
      simp only [matchItems] at h
      exact ih _ prev s pos m h

theorem matchItems_one_stop_gt (c : Cls) (r : List Item) (cap : Nat × Nat)
    (prev : Option Nat) (s : List Nat) (pos : Nat) (m : MatchEnd)
    (h : matchItems (Item.one c :: r) cap prev s pos = some m) : pos < m.stop := by
  cases s with
  | nil =>
    unfold matchItems at h
    cases h
  | cons x xs =>
    unfold matchItems at h
    by_cases hc : c.mem x = true
    · simp only [hc, if_true] at h
      have := matchItems_stop_ge r cap (some x) xs (pos + 1) m h
      omega
    · simp only [hc, if_false, Bool.false_eq_true] at h
      cases h

theorem matchItems_wordB (r : List Item) (cap : Nat × Nat)
    (prev : Option Nat) (s : List Nat) (pos : Nat) (m : MatchEnd)
    (h : matchItems (Item.wordB :: r) cap prev s pos = some m) :
    matchItems r cap prev s pos = some m := by
  unfold matchItems at h
  by_cases hb : (isWordAt prev != isWordAt s.head?) = true
  · simp only [hb, if_true] at h
    exact h
  · simp only [hb, if_false, Bool.false_eq_true] at h
    cases h

theorem emailRegex_consuming : Consuming emailRegex := by
  intro cap prev s pos m h
  have he : emailRegex = Item.wordB :: Item.one localCls ::
      ([Item.many localCls] ++ [lit 64] ++ plus domainCls ++ [lit 46] ++
        atLeastTwo tldCls ++ [Item.wordB]) := rfl
  rw [he] at h
  exact matchItems_one_stop_gt _ _ cap prev s pos m (matchItems_wordB _ cap prev s pos m h)

theorem hrefPattern_consuming (q : Nat) : Consuming (hrefPattern q) := by
  intro cap prev s pos m h
  have he : hrefPattern q = Item.one ⟨false, [(104, 104)]⟩ ::
      ((bytes "ref=").map lit ++
        [lit q, Item.capOpen, Item.many ⟨true, [(q, q)]⟩, Item.capClose, lit q]) := rfl
  rw [he] at h
  exact matchItems_one_stop_gt _ _ cap prev s pos m h

/-- The matches of a consuming pattern are not empty, so the empty-match branch
of `allMatches` is not taken for the patterns of the source. -/
theorem allMatches_ne_nil (re : List Item) (hre : Consuming re) (skip : Nat) (fresh : Bool)
    (prev : Option Nat) (s : List Nat) :
    ∀ m ∈ allMatches re skip fresh prev s, m.whole ≠ [] := by
  induction s generalizing skip fresh prev with
  | nil =>
    intro m hm
    rw [allMatches] at hm
    cases hr : matchItems re (0, 0) prev [] 0 with
    | none => rw [hr] at hm; cases hm
    | some r =>
      have := hre (0, 0) prev [] 0 r hr
      rw [hr] at hm
      have h0 : ¬ (r.stop = 0 ∧ fresh = true) := fun h => by omega
      simp only [h0, if_false] at hm
      cases hm
  | cons x xs ih =>
    intro m hm
    cases skip with
    | succ k =>
      rw [allMatches] at hm
      exact ih k false (some x) m hm
    | zero =>
      rw [allMatches] at hm
      cases hr : matchItems re (0, 0) prev (x :: xs) 0 with
      | none =>
        rw [hr] at hm
        exact ih 0 true (some x) m hm
      | some r =>
        have hpos := hre (0, 0) prev (x :: xs) 0 r hr
        rw [hr] at hm
        have h0 : ¬ r.stop = 0 := by omega
        simp only [h0, if_false, List.mem_cons] at hm
        rcases hm with hm | hm
        · rw [hm]
          obtain ⟨n, hn⟩ := Nat.exists_eq_succ_of_ne_zero h0
          rw [hn]
          simp
        · exact ih (r.stop - 1) false (some x) m hm

/-! ### Every match is a string of the pattern -/

theorem matchMany_sound (c : Cls) (k : Option Nat → List Nat → Nat → Option MatchEnd)
    (P : Str → Prop)
    (hk : ∀ prev s pos m, k prev s pos = some m →
      ∃ w rest, s = w ++ rest ∧ m.stop = pos + w.length ∧ P w)
    (prev : Option Nat) (s : List Nat) (pos : Nat) (m : MatchEnd)
    (h : matchMany c k prev s pos = some m) :
    ∃ w1 w2 rest, s = w1 ++ w2 ++ rest ∧ m.stop = pos + (w1 ++ w2).length ∧
      (∀ x ∈ w1, c.mem x = true) ∧ P w2 := by
  induction s generalizing prev pos with
  | nil =>
    obtain ⟨w, rest, hs, hst, hp⟩ := hk prev [] pos m h
    exact ⟨[], w, rest, by simpa using hs, by simpa using hst, by simp, hp⟩
  | cons x xs ih =>
    unfold matchMany at h
    by_cases hc : c.mem x = true
    · simp only [hc, if_true] at h
      cases hr : matchMany c k (some x) xs (pos + 1) with
      | none =>
        rw [hr] at h
        obtain ⟨w, rest, hs, hst, hp⟩ := hk prev (x :: xs) pos m h
        exact ⟨[], w, rest, by simpa using hs, by simpa using hst, by simp, hp⟩
      | some r =>
        rw [hr] at h
        cases h
        obtain ⟨w1, w2, rest, hs, hst, hall, hp⟩ := ih (some x) (pos + 1) hr
        refine ⟨x :: w1, w2, rest, by simp [hs], ?_, ?_, hp⟩
        · simp only [List.length_append, List.length_cons] at hst ⊢
          omega
        · intro y hy
          rcases List.mem_cons.1 hy with hy | hy
          · rw [hy]; exact hc
          · exact hall y hy
    · simp only [hc, if_false, Bool.false_eq_true] at h
      obtain ⟨w, rest, hs, hst, hp⟩ := hk prev (x :: xs) pos m h
      exact ⟨[], w, rest, by simpa using hs, by simpa using hst, by simp, hp⟩

theorem matchItems_sound (items : List Item) (cap : Nat × Nat) (prev : Option Nat)
    (s : List Nat) (pos : Nat) (m : MatchEnd)
    (h : matchItems items cap prev s pos = some m) :
    ∃ w rest, s = w ++ rest ∧ m.stop = pos + w.length ∧ Lang items w := by
  induction items generalizing cap prev s pos m with
  | nil =>
    simp only [matchItems, Option.some.injEq] at h
    exact ⟨[], s, rfl, by rw [← h]; rfl, rfl⟩
  | cons it r ih =>
    cases it with
    | one c =>
      cases s with
      | nil => simp [matchItems] at h
      | cons x xs =>
        simp only [matchItems] at h
        by_cases hc : c.mem x = true
        · simp only [hc, if_true] at h
          obtain ⟨w, rest, hs, hst, hl⟩ := ih cap (some x) xs (pos + 1) m h
          refine ⟨x :: w, rest, by simp [hs], ?_, x, w, rfl, hc, hl⟩
          simp only [List.length_cons]
          omega
        · simp [hc] at h
    | many c =>
      simp only [matchItems] at h
      obtain ⟨w1, w2, rest, hs, hst, hall, hl⟩ :=
        matchMany_sound c (matchItems r cap) (Lang r)
          (fun p s2 q m2 h2 => ih cap p s2 q m2 h2) prev s pos m h
      exact ⟨w1 ++ w2, rest, hs, hst, w1, w2, rfl, hall, hl⟩
    | wordB =>
      simp only [matchItems] at h
      by_cases hb : (isWordAt prev != isWordAt s.head?) = true
      · simp only [hb, if_true] at h
        exact ih cap prev s pos m h
      · simp [hb] at h
    | capOpen =>
      simp only [matchItems] at h
      exact ih _ prev s pos m h
    | capClose =>
      simp only [matchItems] at h
      exact ih _ prev s pos m h

theorem allMatches_sound (re : List Item) (skip : Nat) (fresh : Bool)
    (prev : Option Nat) (s : List Nat) :
    ∀ m ∈ allMatches re skip fresh prev s, Lang re m.whole := by
  induction s generalizing skip fresh prev with
  | nil =>
    intro m hm
    rw [allMatches] at hm
    cases hr : matchItems re (0, 0) prev [] 0 with
    | none => rw [hr] at hm; cases hm
    | some r =>
      rw [hr] at hm
      obtain ⟨w, rest, hs, hst, hl⟩ := matchItems_sound re (0, 0) prev [] 0 r hr
      have hw : w = [] := by
        cases w with
        | nil => rfl
        | cons a w2 => cases hs
      by_cases h0 : r.stop = 0 ∧ fresh = true
      · simp only [h0, and_self, if_true, List.mem_singleton] at hm
        rw [hm]
        rw [hw] at hl
        exact hl
      · simp only [h0, if_false] at hm
        cases hm
  | cons x xs ih =>
    intro m hm
    cases skip with
    | succ k =>
      rw [allMatches] at hm
      exact ih k false (some x) m hm
    | zero =>
      rw [allMatches] at hm
      cases hr : matchItems re (0, 0) prev (x :: xs) 0 with
      | none =>
        rw [hr] at hm
        exact ih 0 true (some x) m hm
      | some r =>
        rw [hr] at hm
        obtain ⟨w, rest, hs, hst, hl⟩ := matchItems_sound re (0, 0) prev (x :: xs) 0 r hr
        by_cases h0 : r.stop = 0
        · simp only [h0, if_true, List.mem_append] at hm
          rcases hm with hm | hm
          · have hw : w = [] := List.length_eq_zero.1 (by omega)
            by_cases hf : fresh = true
            · simp only [hf, if_true, List.mem_singleton] at hm
              rw [hm]
              rw [hw] at hl
              exact hl
            · simp only [hf, if_false, List.not_mem_nil, Bool.false_eq_true] at hm
          · exact ih 0 true (some x) m hm
        · simp only [h0, if_false, List.mem_cons] at hm
          rcases hm with hm | hm
          · rw [hm]
            have ht : (x :: xs).take r.stop = w := by
              rw [hs, hst, Nat.zero_add, List.take_left']
              rfl
            simp only [ht]
            exact hl
          · exact ih (r.stop - 1) false (some x) m hm

theorem localCls_mem (x : Nat) (h : localCls.mem x = true) :
    isLetter x ∨ isDigit x ∨ x = 46 ∨ x = 95 ∨ x = 37 ∨ x = 43 ∨ x = 45 := by
  simp [localCls, Cls.mem, rng, chr] at h
  simp only [isLetter, isDigit]
  omega

theorem domainCls_mem (x : Nat) (h : domainCls.mem x = true) :
    isLetter x ∨ isDigit x ∨ x = 46 ∨ x = 45 := by
  simp [domainCls, Cls.mem, rng, chr] at h
  simp only [isLetter, isDigit]
  omega

theorem tldCls_mem (x : Nat) (h : tldCls.mem x = true) : isLetter x ∨ x = 124 := by
  simp [tldCls, Cls.mem, rng, chr] at h
  simp only [isLetter]
  omega

theorem lit_mem (c x : Nat) (h : (⟨false, [(c, c)]⟩ : Cls).mem x = true) : x = c := by
  simp [Cls.mem] at h
  omega

theorem sourceToken_of_lang (w : Str) (h : Lang emailRegex w) : SourceToken w := by
  simp only [emailRegex, plus, atLeastTwo, lit, List.cons_append, List.nil_append, Lang] at h
  obtain ⟨l0, r1, rfl, hl0, l1, r2, rfl, hl1, at0, r3, rfl, hat, d0, r4, rfl, hd0, d1, r5, rfl,
    hd1, dot, r6, rfl, hdot, t0, r7, rfl, ht0, t1, r8, rfl, ht1, t2, r9, rfl, ht2, rfl⟩ := h
  have e1 := lit_mem 64 at0 hat
  have e2 := lit_mem 46 dot hdot
  subst e1
  subst e2
  refine ⟨l0 :: l1, d0 :: d1, t0 :: t1 :: t2, by simp, by simp, ?_, by simp, ?_, by simp, ?_⟩
  · intro c hc
    rcases List.mem_cons.1 hc with hc | hc
    · rw [hc]; exact localCls_mem l0 hl0
    · exact localCls_mem c (hl1 c hc)
  · intro c hc
    rcases List.mem_cons.1 hc with hc | hc
    · rw [hc]; exact domainCls_mem d0 hd0
    · exact domainCls_mem c (hd1 c hc)
  · intro c hc
    rcases List.mem_cons.1 hc with hc | hc
    · rw [hc]; exact tldCls_mem t0 ht0
    · rcases List.mem_cons.1 hc with hc | hc
      · rw [hc]; exact tldCls_mem t1 ht1
      · exact tldCls_mem c (ht2 c hc)

theorem sourceToken_of_mem_FindAllString (text e : Str)
    (h : e ∈ FindAllString emailRegex text) : SourceToken e := by
  unfold FindAllString at h
  obtain ⟨m, hm, rfl⟩ := List.mem_map.1 h
  exact sourceToken_of_lang _ (allMatches_sound emailRegex 0 true none text m hm)

/-- Every email of a result of `extractEmailsAndLinks` is a token of the pattern
of the source: the stated pattern, with `|` also accepted in the top-level
domain. -/
theorem emails_are_source_tokens (lib : GoLib) (targetURL baseURL : Str)
    (fetch : FetchOutcome) :
    (∀ e ∈ (Main.extractEmailsAndLinks lib targetURL baseURL fetch).Emails, SourceToken e) ∧
    (∀ r, Extractor.extractEmailsAndLinks lib targetURL baseURL fetch = some r →
      ∀ e ∈ r.Emails, SourceToken e) := by
  have hmain : ∀ body, ∀ e ∈ (Main.extractEmailsAndLinks lib targetURL baseURL
      (FetchOutcome.response 200 body none)).Emails, SourceToken e := by
    intro body e he
    rw [Main.mem_extract_Emails] at he
    rcases he.2 with h | ⟨link, _, _, h⟩
    · exact sourceToken_of_mem_FindAllString _ e h
    · exact sourceToken_of_mem_FindAllString _ e h
  constructor
  · intro e he
    rcases FetchOutcome.cases4 fetch with ⟨err, hf⟩ | ⟨st, body, re, hst, hf⟩ |
      ⟨body, err, hf⟩ | ⟨body, hf⟩
    · subst hf; rw [Main.extract_getError] at he; cases he
    · subst hf; rw [Main.extract_status _ _ _ _ _ _ hst] at he; cases he
    · subst hf; rw [Main.extract_readErr] at he; cases he
    · subst hf; exact hmain body e he
  · intro r hr e he
    cases fetch with
    | getError err =>
      rw [Extractor.ext_getError] at hr
      cases hr
      cases he
    | response status body readErr =>
      by_cases hst : status = 200
      · subst hst
        rw [Extractor.extract_some lib targetURL baseURL body readErr r hr] at he
        exact hmain body e he
      · rw [Extractor.ext_status _ _ _ _ _ _ hst] at hr
        cases hr
        cases he

end ProEmailHunter
